import Mathlib

/-!
Verification of the OCR text-reconstruction pipeline
(`Step1_ocr_cleanup_v11.py`, `Step2_formatting_v14.py`, `Step3_structuring_v1.py`)
against its natural-language specification.

Texts are shallowly embedded as `List Char` (a Python `str` is a sequence of
Unicode code points); lines are `List (List Char)` as produced by
`str.splitlines` (the pipeline's texts only use `\n` line ends, which is the
case modelled here).  Python regular expressions are compiled by hand into
executable character-list scanners; each definition carries a comment naming
the source construct it embeds.  `\s` and `str.strip` are modelled by the
ASCII whitespace set (space, tab, CR, LF, FF, VT), and `\w` by ASCII
alphanumerics, underscore and the Latin-1 letter ranges, which is exact for
every character class and input appearing in this development.
-/

set_option maxRecDepth 20000

namespace PdfPipeline

/-- The double-quote character `"`. -/
def qc : Char := Char.ofNat 34

/-- The apostrophe character. -/
def apos : Char := Char.ofNat 39

/-- Python `\s` / `str.strip` whitespace (ASCII part). -/
def isSpace (c : Char) : Bool :=
  c == ' ' || c == '\t' || c == '\n' || c == Char.ofNat 13 ||
  c == Char.ofNat 11 || c == Char.ofNat 12

/-- ASCII decimal digit, Python `\d` (ASCII part). -/
def isDigitC (c : Char) : Bool := '0' ≤ c && c ≤ '9'

/-- ASCII letter `[A-Za-z]`. -/
def isAsciiLetter (c : Char) : Bool :=
  ('A' ≤ c && c ≤ 'Z') || ('a' ≤ c && c ≤ 'z')

/-- The regex class `[a-zà-öø-ÿ]` (lowercase letters used by the code). -/
def isLowerX (c : Char) : Bool :=
  ('a' ≤ c && c ≤ 'z') ||
  (Char.ofNat 0xE0 ≤ c && c ≤ Char.ofNat 0xF6) ||
  (Char.ofNat 0xF8 ≤ c && c ≤ Char.ofNat 0xFF)

/-- The regex class `[A-Za-zÀ-ÖØ-öø-ÿ]` (letters incl. Latin-1). -/
def isLetterX (c : Char) : Bool :=
  isAsciiLetter c ||
  (Char.ofNat 0xC0 ≤ c && c ≤ Char.ofNat 0xD6) ||
  (Char.ofNat 0xD8 ≤ c && c ≤ Char.ofNat 0xF6) ||
  (Char.ofNat 0xF8 ≤ c && c ≤ Char.ofNat 0xFF)

/-- Python `\w`: alphanumerics, underscore, Latin-1 letters. -/
def isWordChar (c : Char) : Bool :=
  isAsciiLetter c || isDigitC c || c == '_' ||
  (Char.ofNat 0xC0 ≤ c && c ≤ Char.ofNat 0xD6) ||
  (Char.ofNat 0xD8 ≤ c && c ≤ Char.ofNat 0xF6) ||
  (Char.ofNat 0xF8 ≤ c && c ≤ Char.ofNat 0xFF)

/-- `[A-Z0-9]`. -/
def isUpperOrDigit (c : Char) : Bool :=
  ('A' ≤ c && c ≤ 'Z') || isDigitC c

/-- Python `str.strip()`. -/
def stripL (cs : List Char) : List Char :=
  ((cs.dropWhile isSpace).reverse.dropWhile isSpace).reverse

/-- Python `str.splitlines()` for texts whose only line end is `\n`: split on
`\n`, except that a trailing newline produces no final empty line (and `""`
gives `[]`, since `[].splitOn` is `[[]]` and its last element is dropped). -/
def splitlines (cs : List Char) : List (List Char) :=
  let l := cs.splitOn '\n'
  if l.getLast? = some [] then l.dropLast else l

/-- Python `"\n".join(lines)`. -/
def joinNl (ls : List (List Char)) : List Char :=
  List.intercalate ['\n'] ls

/-- Case-insensitive prefix match against a lower-case pattern
(`re.IGNORECASE` on ASCII letters). -/
def ciPfx : List Char → List Char → Bool
  | [], _ => true
  | _ :: _, [] => false
  | p :: ps, c :: cs => (c.toLower == p) && ciPfx ps cs

/-- Word boundary `\b` on the left of a match: previous char (if any) is
not a word character. -/
def bdryB : Option Char → Bool
  | none => true
  | some p => !isWordChar p

/-- Word boundary `\b` on the right of a match: next char (if any) is
not a word character. -/
def bdryA : List Char → Bool
  | [] => true
  | c :: _ => !isWordChar c

/-- Generic unanchored `re.search` scan: `m` attempts a match at the current
position (returning the remainder on success); success requires `\b` on
both sides. -/
def scanBdry (m : List Char → Option (List Char)) : Option Char → List Char → Bool
  | _, [] => false
  | prev, c :: rest =>
    (bdryB prev &&
      (match m (c :: rest) with
       | some r => bdryA r
       | none => false)) ||
    scanBdry m (some c) rest

/-- Match a literal word case-insensitively at the current position. -/
def ciDropPfx (pat cs : List Char) : Option (List Char) :=
  if ciPfx pat cs then some (cs.drop pat.length) else none

/-- Match a sequence of words separated by `\s+` at the current position. -/
def gapSeq : List (List Char) → List Char → Option (List Char)
  | [], cs => some cs
  | w :: ws, cs =>
    match ciDropPfx w cs with
    | none => none
    | some r =>
      match ws with
      | [] => some r
      | _ :: _ =>
        if (r.takeWhile isSpace).isEmpty then none
        else gapSeq ws (r.dropWhile isSpace)

/-- `vol_re = re.compile(r"(?i)\bvolume\b")` — `re.search`. -/
def volSearch (l : List Char) : Bool :=
  scanBdry (ciDropPfx "volume".data) none l

/-- `hist_re = re.compile(r"(?i)\bhistory\s+of\s+my\s+life\b")` — `re.search`. -/
def histSearch (l : List Char) : Bool :=
  scanBdry (gapSeq ["history".data, "of".data, "my".data, "life".data]) none l

/-- `chapter_inline_re = re.compile(r"(?i)\bchapter\b")` — `re.search`. -/
def chapInlineSearch (l : List Char) : Bool :=
  scanBdry (ciDropPfx "chapter".data) none l

/-- The word "chapter" as (lowercase, uppercase) character pairs, for
case-insensitive anchored matching. -/
def chapterPairs : List (Char × Char) :=
  [('c', 'C'), ('h', 'H'), ('a', 'A'), ('p', 'P'), ('t', 'T'), ('e', 'E'), ('r', 'R')]

/-- Match a list of case pairs as a prefix; each input char must be the
lower or upper variant. -/
def matchPairs : List (Char × Char) → List Char → Option (List Char)
  | [], cs => some cs
  | _ :: _, [] => none
  | (lo, up) :: ps, c :: cs =>
    if c == lo || c == up then matchPairs ps cs else none

/-- `[ivxlcdm]` with `re.IGNORECASE`. -/
def isRomanCIc (c : Char) : Bool :=
  c == 'i' || c == 'v' || c == 'x' || c == 'l' || c == 'c' || c == 'd' || c == 'm' ||
  c == 'I' || c == 'V' || c == 'X' || c == 'L' || c == 'C' || c == 'D' || c == 'M'

/-- `[IVXLCDM]`. -/
def isRomanUp (c : Char) : Bool :=
  c == 'I' || c == 'V' || c == 'X' || c == 'L' || c == 'C' || c == 'D' || c == 'M'

/-- The trailing-mark class `[.¹²³⁰-⁹˚]` of
`chap_line_ci`. -/
def isTrailMark (c : Char) : Bool :=
  c == '.' || c == Char.ofNat 0xB9 || c == Char.ofNat 0xB2 || c == Char.ofNat 0xB3 ||
  (Char.ofNat 0x2070 ≤ c && c ≤ Char.ofNat 0x2079) || c == Char.ofNat 0x02DA

/-- `chap_line_ci = re.compile(r'^\s*chapter\s+[ivxlcdm]+[.¹²³⁰-⁹˚]*\s*$', re.IGNORECASE)`
applied with `.match(s.strip())` (Step1_ocr_cleanup_v11.py line 59-61).
On the stripped line the anchors make this a full parse. -/
def chapLineCI (l : List Char) : Bool :=
  let s := stripL l
  match matchPairs chapterPairs s with
  | none => false
  | some r1 =>
    let w := r1.takeWhile isSpace
    let r2 := r1.dropWhile isSpace
    let rom := r2.takeWhile isRomanCIc
    let r3 := r2.dropWhile isRomanCIc
    !w.isEmpty && !rom.isEmpty && r3.all isTrailMark

/-- First index (if any) whose predicate holds, counting from `i`. -/
def findIdxFromAux (f : List Char → Bool) : Nat → List (List Char) → Option Nat
  | _, [] => none
  | i, l :: rest => if f l then some i else findIdxFromAux f (i + 1) rest

/-- `_find_first_chapter_heading_idx(lines)` (Step1 lines 58-63). -/
def _find_first_chapter_heading_idx (lines : List (List Char)) : Option Nat :=
  findIdxFromAux chapLineCI 0 lines

/-- `bullet_re = re.compile(r"^\s*[•·]\s*$")` on a stripped line. -/
def bulletLine (s : List Char) : Bool :=
  s == ['•'] || s == ['·']

/-- Character class of `punct_only_re = re.compile(r'^\s*[\.,;:!?—–\-\"“”„‟’\']+\s*$')`. -/
def isPunctOnlyChar (c : Char) : Bool :=
  c == '.' || c == ',' || c == ';' || c == ':' || c == '!' || c == '?' ||
  c == '—' || c == '–' || c == '-' || c == qc || c == '“' || c == '”' ||
  c == '„' || c == '‟' || c == '’' || c == apos

/-- `punct_only_re` on a stripped line. -/
def punctOnlyLine (s : List Char) : Bool :=
  !s.isEmpty && s.all isPunctOnlyChar

/-- Character class of `quote_only_re = re.compile(r'^\s*[\"\'“”„‟’]+\s*$')`. -/
def isQuoteOnlyChar (c : Char) : Bool :=
  c == qc || c == apos || c == '“' || c == '”' || c == '„' || c == '‟' || c == '’'

/-- `quote_only_re` on a stripped line. -/
def quoteOnlyLine (s : List Char) : Bool :=
  !s.isEmpty && s.all isQuoteOnlyChar

/-- `numeric_only_re = re.compile(r"^\s*(?:\d{1,4}|[IVXLCDM]+)\.?\s*$")` on a
stripped line: 1-4 digits or an uppercase Roman run, optionally ending in
a dot. -/
def numericOnlyLine (s : List Char) : Bool :=
  let core := if s.getLast? == some '.' then s.dropLast else s
  (!core.isEmpty && core.all isDigitC && decide (core.length ≤ 4)) ||
  (!core.isEmpty && core.all isRomanUp)

/-- `allcaps_chapter_heading_re = re.compile(r"^\s*CHAPTER\s+(?:[IVXLCDM]+|[A-Z0-9]+)\s*$")`
applied to a stripped line.  Since `[IVXLCDM] ⊆ [A-Z0-9]`, the alternation
is one nonempty `[A-Z0-9]` run extending to the end. -/
def allcapsChapterHeading (l : List Char) : Bool :=
  let s := stripL l
  if "CHAPTER".data.isPrefixOf s then
    let r1 := s.drop 7
    let w := r1.takeWhile isSpace
    let rest := r1.dropWhile isSpace
    !w.isEmpty && !rest.isEmpty && rest.all isUpperOrDigit
  else false

/-- `[\.!?;:]` of the body-line test. -/
def isTermPunct5 (c : Char) : Bool :=
  c == '.' || c == '!' || c == '?' || c == ';' || c == ':'

/-- `re.search(r"[A-Za-z].*[\.!?;:]\s*$", s)` on a stripped line: the last
character is terminal punctuation and some ASCII letter occurs before it. -/
def endsTermAfterLetter (s : List Char) : Bool :=
  match s.getLast? with
  | some c => isTermPunct5 c && s.dropLast.any isAsciiLetter
  | none => false

/-- Count of maximal `isLetterX` runs (`re.findall(r"[A-Za-zÀ-ÖØ-öø-ÿ]+", s)`),
tracking whether the previous char was a letter. -/
def countRunsAux : Bool → List Char → Nat
  | _, [] => 0
  | prev, c :: rest =>
    (if isLetterX c && !prev then 1 else 0) + countRunsAux (isLetterX c) rest

/-- Number of word tokens on a line. -/
def countWords (s : List Char) : Nat := countRunsAux false s

/-- `is_body_line(idx)` (Step1 lines 102-113), as a predicate on the line. -/
def isBodyLine (l : List Char) : Bool :=
  let s := stripL l
  !s.isEmpty &&
    (allcapsChapterHeading s || s.any isLowerX || endsTermAfterLetter s ||
     decide (2 ≤ countWords s))

/-- `is_headerish(idx)` (Step1 lines 86-100). -/
def isHeaderish (lines : List (List Char)) (p? : Option Nat) (i : Nat) : Bool :=
  if p? == some i then false
  else
    let s := stripL (lines.getD i [])
    if s.isEmpty then true
    else if bulletLine s || punctOnlyLine s || quoteOnlyLine s then true
    else if numericOnlyLine s then true
    else if volSearch s || histSearch s then true
    else if chapInlineSearch s && !allcapsChapterHeading s then true
    else false

/-- A block-seed line: `vol_re.search(s) or hist_re.search(s)` (Step1 line 122). -/
def seedLine (l : List Char) : Bool :=
  volSearch l || histSearch l

/-- Upward span expansion (Step1 lines 123-125): step `lo` down through
headerish, non-allcaps-heading, non-protected lines.  Structural recursion
on `lo`: at `lo + 1` the loop inspects line `lo`. -/
def expandUp (lines : List (List Char)) (p? : Option Nat) : Nat → Nat
  | 0 => 0
  | lo + 1 =>
    if p? != some lo && isHeaderish lines p? lo &&
        !allcapsChapterHeading (stripL (lines.getD lo [])) then
      expandUp lines p? lo
    else lo + 1

/-- Downward span expansion (Step1 lines 126-128) with an explicit iteration
bound: the loop raises `hi` only while `hi + 1 < n`, so fuel `n` always
suffices. -/
def expandDownF (lines : List (List Char)) (p? : Option Nat) (n : Nat) : Nat → Nat → Nat
  | hi, 0 => hi
  | hi, fuel + 1 =>
    if decide (hi + 1 < n) && p? != some (hi + 1) && isHeaderish lines p? (hi + 1) &&
        !allcapsChapterHeading (stripL (lines.getD (hi + 1) [])) then
      expandDownF lines p? n (hi + 1) fuel
    else hi

def expandDown (lines : List (List Char)) (p? : Option Nat) (n : Nat) (hi : Nat) : Nat :=
  expandDownF lines p? n hi n

/-- The condition a line must satisfy to be absorbed as a dangling
numeric/punctuation cluster (Step1 lines 131-147): nonempty stripped text,
not the protected index, and numeric-only / punct-only / quote-only. -/
def absorbCond (lines : List (List Char)) (p? : Option Nat) (k : Nat) : Bool :=
  let s := stripL (lines.getD k [])
  !s.isEmpty && p? != some k &&
    (numericOnlyLine s || punctOnlyLine s || quoteOnlyLine s)

/-- `absorb_up(lo0)` with its `taken < 3` budget, given as fuel. -/
def absorbUp (lines : List (List Char)) (p? : Option Nat) : Nat → Nat → Nat
  | lo0, 0 => lo0
  | lo0, fuel + 1 =>
    if 0 < lo0 ∧ absorbCond lines p? (lo0 - 1) = true then
      absorbUp lines p? (lo0 - 1) fuel
    else lo0

/-- `absorb_down(hi0)` with its `taken < 3` budget, given as fuel. -/
def absorbDown (lines : List (List Char)) (p? : Option Nat) (n : Nat) : Nat → Nat → Nat
  | hi0, 0 => hi0
  | hi0, fuel + 1 =>
    if hi0 + 1 < n ∧ absorbCond lines p? (hi0 + 1) = true then
      absorbDown lines p? n (hi0 + 1) fuel
    else hi0

/-- The protected-heading shrink (Step1 lines 154-159), in `Int` because
Python's `hi` may become `-1` there, which rejects the span at `lo <= hi`. -/
def shrinkSpan (p? : Option Nat) (lo1 hi1 : Nat) : Int × Int :=
  match p? with
  | some p =>
    if lo1 ≤ p ∧ p ≤ hi1 then
      if hi1 - p < p - lo1 then ((p : Int) + 1, (hi1 : Int))
      else ((lo1 : Int), (p : Int) - 1)
    else ((lo1 : Int), (hi1 : Int))
  | none => ((lo1 : Int), (hi1 : Int))

/-- One iteration of the span-collection loop (Step1 lines 118-163) at line
`i`: skip if already inside a collected span (`visited`), else expand a
candidate block around a seed line, absorb dangling clusters, compute the
body-adjacency acceptance bits (before the shrink, as in the source),
shrink around the protected heading, and accept. -/
def buildStep (lines : List (List Char)) (p? : Option Nat) (n : Nat)
    (acc : List (Nat × Nat)) (i : Nat) : List (Nat × Nat) :=
  if acc.any (fun sp => decide (sp.1 ≤ i) && decide (i ≤ sp.2)) then acc
  else if seedLine (lines.getD i []) then
    let lo1 := absorbUp lines p? (expandUp lines p? i) 3
    let hi1 := absorbDown lines p? n (expandDown lines p? n i) 3
    let loOk := lo1 == 0 || isBodyLine (lines.getD (lo1 - 1) [])
    let hiOk := hi1 == n - 1 || isBodyLine (lines.getD (hi1 + 1) [])
    let sh := shrinkSpan p? lo1 hi1
    if decide (sh.1 ≤ sh.2) && (loOk || hiOk) then
      acc ++ [(sh.1.toNat, sh.2.toNat)]
    else acc
  else acc

/-- `to_delete`: all accepted spans, in loop order. -/
def buildSpans (lines : List (List Char)) (p? : Option Nat) : List (Nat × Nat) :=
  (List.range lines.length).foldl (buildStep lines p? lines.length) []

/-- Python tuple order on spans (`to_delete.sort()`). -/
def spanLeB (a b : Nat × Nat) : Bool :=
  decide (a.1 < b.1) || (a.1 == b.1 && decide (a.2 ≤ b.2))

/-- Insertion into a sorted span list. -/
def insSpan (x : Nat × Nat) : List (Nat × Nat) → List (Nat × Nat)
  | [] => [x]
  | y :: ys => if spanLeB x y then x :: y :: ys else y :: insSpan x ys

/-- Insertion sort realizing `to_delete.sort()`. -/
def sortSpans : List (Nat × Nat) → List (Nat × Nat)
  | [] => []
  | x :: xs => insSpan x (sortSpans xs)

/-- Merge loop over the sorted spans (Step1 lines 170-178): overlapping or
adjacent spans (`lo <= cur_hi + 1`) are coalesced. -/
def mergeAux : (Nat × Nat) → List (Nat × Nat) → List (Nat × Nat)
  | cur, [] => [cur]
  | cur, (lo, hi) :: rest =>
    if lo ≤ cur.2 + 1 then mergeAux (cur.1, max cur.2 hi) rest
    else cur :: mergeAux (lo, hi) rest

/-- `merged` (Step1 lines 169-178). -/
def mergeSpans : List (Nat × Nat) → List (Nat × Nat)
  | [] => []
  | s :: rest => mergeAux s rest

/-- Index `i` is in `delset` (Step1 lines 180-183). -/
def inDel (spans : List (Nat × Nat)) (i : Nat) : Bool :=
  spans.any (fun sp => decide (sp.1 ≤ i) && decide (i ≤ sp.2))

/-- `keep = [ln for idx, ln in enumerate(lines) if idx not in delset]`,
with `f` the keep-predicate on indices starting at `i`. -/
def keepLines (f : Nat → Bool) : Nat → List (List Char) → List (List Char)
  | _, [] => []
  | i, l :: rest =>
    if f i then l :: keepLines f (i + 1) rest else keepLines f (i + 1) rest

/-- The merged deletion spans computed for a line list. -/
def mergedSpans (lines : List (List Char)) : List (Nat × Nat) :=
  mergeSpans (sortSpans (buildSpans lines (_find_first_chapter_heading_idx lines)))

/-- `remove_header_footer_blocks` at the line level: which lines survive. -/
def removeHeaderFooterLines (lines : List (List Char)) : List (List Char) :=
  if (buildSpans lines (_find_first_chapter_heading_idx lines)).isEmpty then lines
  else keepLines (fun i => !inDel (mergedSpans lines) i) 0 lines

/-- `remove_header_footer_blocks(text, log)` (Step1 lines 65-192), text part:
when no span is accepted the original string object is returned unchanged
(lines 165-167); otherwise the kept lines are rejoined with `"\n"`. -/
def remove_header_footer_blocks (s : String) : String :=
  let lines := splitlines s.data
  if (buildSpans lines (_find_first_chapter_heading_idx lines)).isEmpty then s
  else String.mk (joinNl (removeHeaderFooterLines lines))

/-! ### Step 1: encoding fixes and the preservation rule -/

/-- Python `str.replace(pat, repl)` for nonempty `pat`: scan left to right,
replacing non-overlapping occurrences and continuing after each match.
Structural recursion on fuel: each step either emits one character or
consumes `pat.length ≥ 1` characters, so fuel `cs.length` suffices. -/
def replaceAllF (pat repl : List Char) : Nat → List Char → List Char
  | 0, cs => cs
  | _ + 1, [] => []
  | fuel + 1, c :: rest =>
    if !pat.isEmpty && pat.isPrefixOf (c :: rest) then
      repl ++ replaceAllF pat repl fuel ((c :: rest).drop pat.length)
    else c :: replaceAllF pat repl fuel rest

def replaceAll (pat repl cs : List Char) : List Char :=
  replaceAllF pat repl cs.length cs

/-- The `mapping` table of `_apply_french_utf8_latin1_fixes`
(Step1 lines 8-20), in source order. -/
def step1FrenchMap : List (List Char × List Char) :=
  [("Ã©".data, "é".data), ("Ã¨".data, "è".data), ("Ãª".data, "ê".data), ("Ã«".data, "ë".data),
   ("Ã ".data, "à".data), ("Ã¢".data, "â".data), ("Ã¤".data, "ä".data),
   ("Ã¹".data, "ù".data), ("Ã»".data, "û".data), ("Ã¼".data, "ü".data),
   ("Ã®".data, "î".data), ("Ã¯".data, "ï".data),
   ("Ã´".data, "ô".data), ("Ã¶".data, "ö".data),
   ("Ã‡".data, "Ç".data), ("Ã§".data, "ç".data),
   ("Ã‰".data, "É".data), ("Ãˆ".data, "È".data), ("ÃŠ".data, "Ê".data), ("Ã‹".data, "Ë".data),
   ("Ã€".data, "À".data), ("Ã‚".data, "Â".data), ("Ã„".data, "Ä".data),
   ("Ã™".data, "Ù".data), ("Ã›".data, "Û".data), ("Ãœ".data, "Ü".data),
   ("ÃŽ".data, "Î".data), ("Ã\u008F".data, "Ï".data),
   ("Ã”".data, "Ô".data), ("Ã–".data, "Ö".data)]

/-- `fix_word` (Step1 lines 22-26): replace each mapping pair in turn inside
the matched token. -/
def fixWord (s : List Char) : List Char :=
  step1FrenchMap.foldl (fun t kv => replaceAll kv.1 kv.2 t) s

/-- The token class `[A-Za-zÀ-ÖØ-öø-ÿ'’-]` of the word regex
(Step1 line 27). -/
def isFrWordChar (c : Char) : Bool :=
  isLetterX c || c == apos || c == '’' || c == '-'

/-- `re.sub(r"[A-Za-zÀ-ÖØ-öø-ÿ'’-]{2,}", fix_word, text)` (Step1 line 27):
apply `fix_word` to every maximal run of at least two token characters.
Fuel-structural: each step consumes at least one character. -/
def frTokenSub : Nat → List Char → List Char
  | 0, cs => cs
  | _ + 1, [] => []
  | fuel + 1, c :: rest =>
    if isFrWordChar c then
      (if 2 ≤ (c :: rest.takeWhile isFrWordChar).length
       then fixWord (c :: rest.takeWhile isFrWordChar)
       else c :: rest.takeWhile isFrWordChar) ++ frTokenSub fuel (rest.dropWhile isFrWordChar)
    else c :: frTokenSub fuel rest

def applyFrenchFixesL (cs : List Char) : List Char :=
  frTokenSub cs.length cs

/-- `_apply_french_utf8_latin1_fixes(text)` (Step1 lines 7-27). -/
def _apply_french_utf8_latin1_fixes (s : String) : String :=
  String.mk (applyFrenchFixesL s.data)

/-- `\s*$` at a position in multiline mode: the whitespace run here (which
may cross newlines) either reaches the end of the text, or contains a
newline — the `$` then sits before the run's last newline.  Only success is
modelled: the exact extent of the consumed trailing run is stripped away by
`.strip()` everywhere it is used. -/
def tailSS (cs : List Char) : Bool :=
  (cs.dropWhile isSpace).isEmpty || (cs.takeWhile isSpace).any (· == '\n')

/-- A `(?m)^\s*CHAPTER\s+(?:[IVXLCDM]+|[A-Z0-9]+)\s*$` match attempt
(Step1 line 31) at a line-start position whose leading `\s*` has already
been consumed: `\s` crosses newlines, so every quantifier run is the
maximal one (after a shorter run the next char is of the same class, where
neither the following literal nor `$` can match), and the first
alternative is tried before the second, as the backtracking engine does.
Returns the stripped match `group(0).strip()`: the leading run and the
all-whitespace trailing `\s*` fall away, leaving
`CHAPTER ++ mid ++ numeral`, where the `\s+` run `mid` may itself contain
newlines. -/
def chapCore (a : List Char) : Option (List Char) :=
  if "CHAPTER".data.isPrefixOf a && !((a.drop 7).takeWhile isSpace).isEmpty then
    if !(((a.drop 7).dropWhile isSpace).takeWhile isRomanUp).isEmpty &&
        tailSS (((a.drop 7).dropWhile isSpace).drop
          (((a.drop 7).dropWhile isSpace).takeWhile isRomanUp).length) then
      some ("CHAPTER".data ++ (a.drop 7).takeWhile isSpace ++
        ((a.drop 7).dropWhile isSpace).takeWhile isRomanUp)
    else if !(((a.drop 7).dropWhile isSpace).takeWhile isUpperOrDigit).isEmpty &&
        tailSS (((a.drop 7).dropWhile isSpace).drop
          (((a.drop 7).dropWhile isSpace).takeWhile isUpperOrDigit).length) then
      some ("CHAPTER".data ++ (a.drop 7).takeWhile isSpace ++
        ((a.drop 7).dropWhile isSpace).takeWhile isUpperOrDigit)
    else none
  else none

/-- `chap_line_re.search(original_text)` (Step1 lines 31-33): the pattern is
anchored by `^`, so only offset 0 and offsets after a newline can start a
match; the leftmost one wins.  No whitespace char equals `C`, so the
leading `\s*` of an attempt consumes exactly the maximal (possibly
newline-crossing) run. -/
def chapSearchF : Nat → Bool → List Char → Option (List Char)
  | 0, _, _ => none
  | _ + 1, _, [] => none
  | fuel + 1, atLS, c :: rest =>
    match (if atLS then chapCore ((c :: rest).dropWhile isSpace) else none) with
    | some r => some r
    | none => chapSearchF fuel (c == '\n') rest

/-- The stripped first match of `chap_line_re` over the whole text. -/
def firstAllcapsChapterLine (cs : List Char) : Option (List Char) :=
  chapSearchF cs.length true cs

/-- Right strip (trailing whitespace only). -/
def stripRw (l : List Char) : List Char := (l.reverse.dropWhile isSpace).reverse

/-- A `(?m)^\s*Volume\s+\S.*$` match attempt (Step1 line 43) after the
leading `\s*`: literal `Volume`, a maximal (possibly newline-crossing)
`\s+` run, one non-space char, then `.*` up to the end of that line, where
`$` always matches.  Returns `group(0).strip()`:
`Volume ++ mid ++ right-stripped rest-of-line`. -/
def volCore (a : List Char) : Option (List Char) :=
  if "Volume".data.isPrefixOf a && !((a.drop 6).takeWhile isSpace).isEmpty &&
      !((a.drop 6).dropWhile isSpace).isEmpty then
    some ("Volume".data ++ (a.drop 6).takeWhile isSpace ++
      stripRw (((a.drop 6).dropWhile isSpace).takeWhile (· != '\n')))
  else none

/-- `re.search(r'(?m)^\s*Volume\s+\S.*$', original_text)`, leftmost
line-start match, stripped. -/
def volHeadSearchF : Nat → Bool → List Char → Option (List Char)
  | 0, _, _ => none
  | _ + 1, _, [] => none
  | fuel + 1, atLS, c :: rest =>
    match (if atLS then volCore ((c :: rest).dropWhile isSpace) else none) with
    | some r => some r
    | none => volHeadSearchF fuel (c == '\n') rest

def firstVolumeLine (cs : List Char) : Option (List Char) :=
  volHeadSearchF cs.length true cs

/-- `re.search(r'(?m)^\s*' + re.escape(c) + r'\s*$', text)` at one
line-start position, for a stripped nonempty `c` (which may contain
newlines): `c` starts with a non-space char, so the leading `\s*` consumes
exactly the maximal whitespace run; then the literal `c` and a `\s*$`
tail. -/
def presentAt (c cs : List Char) : Bool :=
  c.isPrefixOf (cs.dropWhile isSpace) && tailSS ((cs.dropWhile isSpace).drop c.length)

/-- The same search over all line-start positions of the text. -/
def presentF (c : List Char) : Nat → Bool → List Char → Bool
  | 0, _, _ => false
  | _ + 1, _, [] => false
  | fuel + 1, atLS, d :: rest =>
    (atLS && presentAt c (d :: rest)) || presentF c fuel (d == '\n') rest

def presentAsLine (text c : List Char) : Bool := presentF c text.length true text

/-- The line-start flag after scanning a list: `true` iff the list is empty
(keeping the incoming flag) or its last character is a newline. -/
def lastIsNl (b : Bool) : List Char → Bool
  | [] => b
  | d :: rest => lastIsNl (d == '\n') rest

/-- `lines[i:i] = ["", c, ""]` with `i` the index of the first non-blank
line (Step1 lines 36-41 and 47-52). -/
def insertBeforeFirstNonblank (lines : List (List Char)) (c : List Char) :
    List (List Char) :=
  let i := (lines.takeWhile (fun l => (stripL l).isEmpty)).length
  lines.take i ++ [[], c, []] ++ lines.drop i

/-- One preservation step: if the remembered match is absent as a
`^\s*…\s*$` occurrence, re-insert it surrounded by blank lines before the
first non-blank line. -/
def preserveStep (text : List Char) (c? : Option (List Char)) : List Char :=
  match c? with
  | none => text
  | some c =>
    if presentAsLine text c then text
    else joinNl (insertBeforeFirstNonblank (splitlines text) c)

/-- `_preserve_allcaps_chapter_and_first_volume_chapter(text, original_text)`
(Step1 lines 30-54). -/
def _preserve_allcaps_chapter_and_first_volume_chapter
    (text original : List Char) : List Char :=
  preserveStep (preserveStep text (firstAllcapsChapterLine original))
    (firstVolumeLine original)

/-- The Step 1 `main` text transformation (Step1 lines 204-207): block
removal, then encoding fixes, then the preservation rule against the
original text. -/
def step1_pipeline (original : String) : String :=
  String.mk (_preserve_allcaps_chapter_and_first_volume_chapter
    (applyFrenchFixesL (remove_header_footer_blocks original).data) original.data)

/-! ### Step 2: tables -/

/-- `SPECIAL_FR` (Step2 lines 337-341), in source order. -/
def SPECIAL_FR : List (List Char × List Char) :=
  [("d'UrfÃ©".data, "d'Urfé".data),
   ("UrfÃ©".data, "Urfé".data),
   ("SociÃ©tÃ©".data, "Société".data),
   ("ASSOCIÃ‰S".data, "ASSOCIÉS".data),
   ("ChambÃ©ry".data, "Chambéry".data)]

/-- `MOJI_MAP` (Step2 lines 327-336) in dict insertion order; the source
literally contains the key "Ã<U+FFFD>" twice (with values "Í" then "Ï"), so the
Python dict keeps it once, at its first position, with the last value. -/
def MOJI_MAP : List (List Char × List Char) :=
  [("Ã ".data, "à".data),
   ("Ã¢".data, "â".data),
   ("Ã¤".data, "ä".data),
   ("Ã¦".data, "æ".data),
   ("Ã§".data, "ç".data),
   ("Ã©".data, "é".data),
   ("Ã¨".data, "è".data),
   ("Ãª".data, "ê".data),
   ("Ã«".data, "ë".data),
   ("Ã¯".data, "ï".data),
   ("Ã®".data, "î".data),
   ("Ã´".data, "ô".data),
   ("Ã¶".data, "ö".data),
   ("Ã¹".data, "ù".data),
   ("Ãº".data, "ú".data),
   ("Ã»".data, "û".data),
   ("Ã¼".data, "ü".data),
   ("Å“".data, "œ".data),
   ("Ã€".data, "À".data),
   ("Ã‚".data, "Â".data),
   ("Ã„".data, "Ä".data),
   ("Ã†".data, "Æ".data),
   ("Ã‡".data, "Ç".data),
   ("Ã‰".data, "É".data),
   ("Ãˆ".data, "È".data),
   ("ÃŠ".data, "Ê".data),
   ("Ã‹".data, "Ë".data),
   ("Ã�".data, "Ï".data),
   ("ÃŽ".data, "Î".data),
   ("Ã”".data, "Ô".data),
   ("Ã–".data, "Ö".data),
   ("Ã™".data, "Ù".data),
   ("Ãš".data, "Ú".data),
   ("Ã›".data, "Û".data),
   ("Ãœ".data, "Ü".data),
   ("Å’".data, "Œ".data),
   ("Â«".data, "«".data),
   ("Â»".data, "»".data),
   ("Â·".data, "·".data),
   ("Â°".data, "°".data),
   ("Â".data, "".data)]

/-- `ARTIFACTS` (Step2 line 342). -/
def ARTIFACTS : List (List Char) :=
  ["â€¢".data, "â€".data, "Â¤".data, "Â¸".data, "Â·".data, "Â«".data, "Â»".data, "Â".data]

/-- `QUOTE_VARIANTS` (Step2 line 344); every variant maps to `"`. -/
def QUOTE_VARIANTS : List (List Char) :=
  ["“".data, "”".data, "„".data, "‟".data, "〝".data, "〞".data, "«".data, "»".data,
   "‹".data, "›".data, "＂".data, "❝".data, "❞".data]

/-- The default money-term set of `_parse_money_terms` (Step2 lines 34-42).
The Python value is a set used in an existential way (first alternative to
match), so list order is irrelevant; listed alphabetically. -/
def MONEY_TERMS : List (List Char) :=
  ["crown".data, "crowns".data, "dollar".data, "dollars".data, "ducat".data,
   "ducats".data, "escudo".data, "escudos".data, "florin".data, "florins".data,
   "franc".data, "francs".data, "guinea".data, "guineas".data, "livre".data,
   "livres".data, "louis".data, "louis d’or".data, "louis-dor".data,
   "maravedi".data, "maravedis".data, "peso".data, "pesos".data, "pistole".data,
   "pistoles".data, "pound".data, "pounds".data, "real".data, "reales".data,
   "reals".data, "sequin".data, "sequins".data, "sou".data, "sous".data,
   "taler".data, "talers".data, "thaler".data, "thalers".data, "zecchini".data,
   "zecchino".data, "zecchins".data, "écu".data, "écus".data]

/-! ### Step 2: quote normalization (`french_and_artifacts`) -/

/-- The `re.subn(r'"{2,}', '"', text)` collapse (Step2 line 369): every
maximal run of double quotes becomes a single one (runs of length one are
left alone, which is the same thing). -/
def collapseQuoteRuns : Nat → List Char → List Char
  | 0, cs => cs
  | _ + 1, [] => []
  | fuel + 1, c :: rest =>
    if c == qc then qc :: collapseQuoteRuns fuel (rest.dropWhile (· == qc))
    else c :: collapseQuoteRuns fuel rest

/-- `french_and_artifacts(text, log)` (Step2 lines 346-373), text part:
specific French fixes, mojibake map, artifact deletions, quote-variant
normalization, double-quote collapse — each a plain `str.replace` or the
final regex collapse, in source order. -/
def french_and_artifacts (cs : List Char) : List Char :=
  let t1 := SPECIAL_FR.foldl (fun t kv => replaceAll kv.1 kv.2 t) cs
  let t2 := MOJI_MAP.foldl (fun t kv => replaceAll kv.1 kv.2 t) t1
  let t3 := ARTIFACTS.foldl (fun t k => replaceAll k [] t) t2
  let t4 := QUOTE_VARIANTS.foldl (fun t k => replaceAll k [qc] t) t3
  collapseQuoteRuns t4.length t4

/-! ### Step 2: reflow -/

/-- The paragraph placeholder `"<<<P>>>"` (Step2 line 386). -/
def PARA : List Char := "<<<P>>>".data

/-- `re.sub(r"\n{3,}", "\n\n", text)`: collapse maximal newline runs of
three or more to exactly two. -/
def collapseNl3 : Nat → List Char → List Char
  | 0, cs => cs
  | _ + 1, [] => []
  | fuel + 1, c :: rest =>
    if c == '\n' then
      (if 2 ≤ (rest.takeWhile (· == '\n')).length then ['\n', '\n']
       else c :: rest.takeWhile (· == '\n')) ++
        collapseNl3 fuel (rest.dropWhile (· == '\n'))
    else c :: collapseNl3 fuel rest

/-- Python `str.islower()` for a char already matched by `[A-Za-z]`. -/
def isLowerAscii (c : Char) : Bool := 'a' ≤ c && c ≤ 'z'

/-- `re.sub(r"([A-Za-z])-(?:\n)([A-Za-z])", safe_dehyphenate, text)`
(Step2 lines 377-381, 389): join `X-\nY`; drop the hyphen only when the
continuation is lowercase. -/
def dehyph : Nat → List Char → List Char
  | 0, cs => cs
  | _ + 1, [] => []
  | fuel + 1, c :: rest =>
    match rest with
    | '-' :: '\n' :: b :: rest2 =>
      if isAsciiLetter c && isAsciiLetter b then
        (if isLowerAscii b then [c, b] else [c, '-', b]) ++ dehyph fuel rest2
      else c :: dehyph fuel rest
    | _ => c :: dehyph fuel rest

/-- `[ \t]`. -/
def isSpTab (c : Char) : Bool := c == ' ' || c == '\t'

/-- `re.sub(r"[ \t]{2,}", " ", text)`. -/
def collapseSpTab : Nat → List Char → List Char
  | 0, cs => cs
  | _ + 1, [] => []
  | fuel + 1, c :: rest =>
    if isSpTab c then
      (if 1 ≤ (rest.takeWhile isSpTab).length then [' ']
       else [c]) ++ collapseSpTab fuel (rest.dropWhile isSpTab)
    else c :: collapseSpTab fuel rest

/-- `[,.;:?!]`. -/
def isPunct6 (c : Char) : Bool :=
  c == ',' || c == '.' || c == ';' || c == ':' || c == '?' || c == '!'

/-- `re.sub(r"\s+([,.;:?!])", r"\1", text)`: a maximal whitespace run
directly followed by punctuation is deleted (no shorter sub-run can match,
since the backtracked run still ends in whitespace). -/
def punctTidy : Nat → List Char → List Char
  | 0, cs => cs
  | _ + 1, [] => []
  | fuel + 1, c :: rest =>
    if isSpace c then
      match rest.dropWhile isSpace with
      | p :: rest2 =>
        if isPunct6 p then p :: punctTidy fuel rest2
        else (c :: rest.takeWhile isSpace) ++ punctTidy fuel (rest.dropWhile isSpace)
      | [] => c :: rest
    else c :: punctTidy fuel rest

/-- `[.!?]`. -/
def isTerm3 (c : Char) : Bool := c == '.' || c == '!' || c == '?'

/-- `re.sub(r'([.!?])([A-Za-z])', r'\1 \2', text)`. -/
def sentenceSpace : Nat → List Char → List Char
  | 0, cs => cs
  | _ + 1, [] => []
  | fuel + 1, c :: rest =>
    match rest with
    | b :: rest2 =>
      if isTerm3 c && isAsciiLetter b then c :: ' ' :: b :: sentenceSpace fuel rest2
      else c :: sentenceSpace fuel rest
    | [] => [c]

/-- `reflow(text, log)` (Step2 lines 383-400), text part. -/
def reflow (cs : List Char) : List Char :=
  let t1 := replaceAll "\r\n".data "\n".data cs
  let t2 := collapseNl3 t1.length t1
  let t3 := replaceAll "\n\n".data PARA t2
  let t4 := dehyph t3.length t3
  let t5 := replaceAll "\u00AD\n".data [] t4
  let t6 := t5.map (fun c => if c == '\n' then ' ' else c)
  let t7 := replaceAll PARA "\n\n".data t6
  let t8 := collapseSpTab t7.length t7
  let t9 := punctTidy t8.length t8
  sentenceSpace t9.length t9

/-! ### Step 2: dialogue paragraphing -/

/-- The placeholder `"<<<PBRK>>>"` (Step2 line 407). -/
def PBRK : List Char := "<<<PBRK>>>".data

/-- Rule A: `re.subn(r'(")([^"]*?)(")\s+(")', r'\1\2"\n\n"', text)`
(Step2 lines 410-412).  A match starts at a quote; the lazy group takes the
run up to the next quote; then whitespace and the opening quote of the next
span, which the match consumes (so scanning resumes inside that span). -/
def ruleA : Nat → List Char → List Char
  | 0, cs => cs
  | _ + 1, [] => []
  | fuel + 1, c :: rest =>
    if c == qc then
      match rest.dropWhile (· != qc) with
      | _ :: r3 =>
        if !(r3.takeWhile isSpace).isEmpty then
          match r3.dropWhile isSpace with
          | q4 :: r5 =>
            if q4 == qc then
              (qc :: rest.takeWhile (· != qc)) ++ [qc, '\n', '\n', qc] ++ ruleA fuel r5
            else qc :: ruleA fuel rest
          | [] => qc :: ruleA fuel rest
        else qc :: ruleA fuel rest
      | [] => qc :: ruleA fuel rest
    else c :: ruleA fuel rest

/-- Rule B: `re.subn(r'([.!?])\s+(")', r'\1\n\n\2', text)` (Step2
lines 415-416). -/
def ruleB : Nat → List Char → List Char
  | 0, cs => cs
  | _ + 1, [] => []
  | fuel + 1, c :: rest =>
    if isTerm3 c then
      if !(rest.takeWhile isSpace).isEmpty then
        match rest.dropWhile isSpace with
        | q :: r2 =>
          if q == qc then c :: '\n' :: '\n' :: qc :: ruleB fuel r2
          else c :: ruleB fuel rest
        | [] => c :: ruleB fuel rest
      else c :: ruleB fuel rest
    else c :: ruleB fuel rest

/-- `[A-ZÀ-Ö]`. -/
def isUpperNarr (c : Char) : Bool :=
  ('A' ≤ c && c ≤ 'Z') || (Char.ofNat 0xC0 ≤ c && c ≤ Char.ofNat 0xD6)

/-- Rule C: `re.subn(r'("([^"]*[.!?])")\s+([A-ZÀ-Ö])', r'\1\n\n\3', text)`
(Step2 lines 419-420): a full quoted span whose inner text ends in terminal
punctuation, whitespace, then an uppercase letter starting narration. -/
def ruleC : Nat → List Char → List Char
  | 0, cs => cs
  | _ + 1, [] => []
  | fuel + 1, c :: rest =>
    if c == qc then
      match rest.dropWhile (· != qc) with
      | _ :: r3 =>
        if (match (rest.takeWhile (· != qc)).getLast? with
            | some lc => isTerm3 lc
            | none => false) && !(r3.takeWhile isSpace).isEmpty then
          match r3.dropWhile isSpace with
          | u :: r5 =>
            if isUpperNarr u then
              (qc :: rest.takeWhile (· != qc)) ++ [qc, '\n', '\n', u] ++ ruleC fuel r5
            else qc :: ruleC fuel rest
          | [] => qc :: ruleC fuel rest
        else qc :: ruleC fuel rest
      | [] => qc :: ruleC fuel rest
    else c :: ruleC fuel rest

/-- `dialogue_paragraphing(text, log)` (Step2 lines 404-429), text part. -/
def dialogue_paragraphing (cs : List Char) : List Char :=
  let t1 := replaceAll "\r\n".data "\n".data cs
  let t2 := collapseNl3 t1.length t1
  let t3 := replaceAll "\n\n".data PBRK t2
  let t4 := ruleA t3.length t3
  let t5 := ruleB t4.length t4
  let t6 := ruleC t5.length t5
  let t7 := replaceAll PBRK "\n\n".data t6
  collapseNl3 t7.length t7

/-! ### Step 2: numeric artifact stripper -/

/-- `money_follow = re.compile(rf'^\s*(?:{money_alt})\b', re.IGNORECASE)`
searched in the rest of the line after a match (Step2 lines 65-66): skip
whitespace, then some money term (case-insensitively) followed by a word
boundary.  The alternation order (longest first) does not matter for the
boolean result, since each alternative is tried independently. -/
def moneyFollow (rest : List Char) : Bool :=
  MONEY_TERMS.any (fun t =>
    ciPfx t (rest.dropWhile isSpace) && bdryA ((rest.dropWhile isSpace).drop t.length))

/-- The group-1 class of the standalone pattern (Step2 line 84). -/
def isS1 (c : Char) : Bool :=
  isSpace c || c == ',' || c == ';' || c == ':' || c == '—' || c == '-' ||
  c == ')' || c == '(' || c == '[' || c == ']' || c == '“' || c == '”' ||
  c == qc || c == apos || c == Char.ofNat 0xA0

/-- The lookahead class of the standalone pattern (Step2 line 84). -/
def isS2 (c : Char) : Bool :=
  isSpace c || c == ',' || c == ';' || c == ':' || c == '—' || c == '-' ||
  c == ')' || c == '(' || c == ']' || c == '[' || c == '“' || c == '”' ||
  c == qc || c == apos || c == '.' || c == '!' || c == '?'

/-- The ordinal test `re.match(r'^\d{1,3}(st|nd|rd|th)$', num, re.IGNORECASE)`
(Step2 line 74). -/
def isOrdinalToken (num : List Char) : Bool :=
  let ds := num.takeWhile isDigitC
  let suf := num.dropWhile isDigitC
  !ds.isEmpty && decide (ds.length ≤ 3) && decide (suf.length = 2) &&
    (ciPfx "st".data suf || ciPfx "nd".data suf || ciPfx "rd".data suf ||
     ciPfx "th".data suf)

/-- `(\d{1,3})(?=($|[S2]))` at the current position: digits are not in the
lookahead class, so the greedy quantifier with backtracking matches exactly
a full maximal digit run of length 1-3 whose follower is in `S2` or the
line end.  Returns `(num, trail, rest-after-num)`; `trail` is the captured
lookahead text (empty at end of line), which the source re-emits without
consuming. -/
def digitsS2Match (ds : List Char) : Option (List Char × List Char × List Char) :=
  if !(ds.takeWhile isDigitC).isEmpty && decide ((ds.takeWhile isDigitC).length ≤ 3) then
    match ds.dropWhile isDigitC with
    | [] => some (ds.takeWhile isDigitC, [], [])
    | c :: rest =>
      if isS2 c then some (ds.takeWhile isDigitC, [c], c :: rest) else none
  else none

/-- `(\d{1,3})(?=($|[^\w]))` at the current position, for the after-punct
and glued contexts (Step2 lines 95, 103). -/
def digitsNonWMatch (ds : List Char) : Option (List Char × List Char) :=
  if !(ds.takeWhile isDigitC).isEmpty && decide ((ds.takeWhile isDigitC).length ≤ 3) then
    match ds.dropWhile isDigitC with
    | [] => some (ds.takeWhile isDigitC, [])
    | c :: rest =>
      if !isWordChar c then some (ds.takeWhile isDigitC, c :: rest) else none
  else none

/-- The standalone substitution
`re.sub(r'(^|[S1])(\d{1,3})(?=($|[S2]))', repl_standalone, line)`
(Step2 lines 70-84): group 1 is `^` (offset 0 only) or one consumed `S1`
character; an ordinal or money-followed number is kept, otherwise deleted;
either way the captured lookahead `trail` is emitted (duplicating it, since
the lookahead is not consumed — as in the source). -/
def subStandaloneF : Nat → Bool → List Char → List Char
  | 0, _, cs => cs
  | _ + 1, _, [] => []
  | fuel + 1, atStart, c :: rest =>
    match (if atStart then digitsS2Match (c :: rest) else none) with
    | some (num, trail, after) =>
      ((if isOrdinalToken num || moneyFollow after then num ++ trail else trail)) ++
        subStandaloneF fuel false after
    | none =>
      if isS1 c then
        match digitsS2Match rest with
        | some (num, trail, after) =>
          c :: ((if isOrdinalToken num || moneyFollow after then num ++ trail else trail) ++
            subStandaloneF fuel false after)
        | none => c :: subStandaloneF fuel false rest
      else c :: subStandaloneF fuel false rest

/-- `re.sub(r'[,:;]\s?(\d{1,3})(?=($|[^\w]))', repl_after_punct, line)`
(Step2 lines 87-95): keep the whole match when money follows, else delete
just the digits. -/
def subAfterPunctF : Nat → List Char → List Char
  | 0, cs => cs
  | _ + 1, [] => []
  | fuel + 1, c :: rest =>
    if c == ',' || c == ':' || c == ';' then
      match rest with
      | s :: rest2 =>
        if isSpace s then
          match digitsNonWMatch rest2 with
          | some (num, after) =>
            (if moneyFollow after then c :: s :: num else [c, s]) ++ subAfterPunctF fuel after
          | none => c :: subAfterPunctF fuel rest
        else
          match digitsNonWMatch rest with
          | some (num, after) =>
            (if moneyFollow after then c :: num else [c]) ++ subAfterPunctF fuel after
          | none => c :: subAfterPunctF fuel rest
      | [] => [c]
    else c :: subAfterPunctF fuel rest

/-- The lookbehind class `[A-Za-zÀ-ÖØ-öø-ÿ]|\.` (Step2 line 103). -/
def isGluedPrev (c : Char) : Bool := isLetterX c || c == '.'

/-- `re.sub(r'(?<=[A-Za-zÀ-ÖØ-öø-ÿ]|\.)(\d{1,3})(?=($|[^\w]))', repl_glued, line)`
(Step2 lines 97-103): digits glued to a word or dot are deleted
unconditionally; `prev` tracks the previous character of the original
line for the lookbehind. -/
def subGluedF : Nat → Option Char → List Char → List Char
  | 0, _, cs => cs
  | _ + 1, _, [] => []
  | fuel + 1, prev, c :: rest =>
    if isDigitC c && (match prev with | some pc => isGluedPrev pc | none => false) then
      match digitsNonWMatch (c :: rest) with
      | some (num, after) => subGluedF fuel (some (num.getLastD c)) after
      | none => c :: subGluedF fuel (some c) rest
    else c :: subGluedF fuel (some c) rest

/-- One line of `strip_footnote_numbers`: the three substitutions in source
order. -/
def stripLineFootnotes (l : List Char) : List Char :=
  subGluedF (subAfterPunctF (subStandaloneF l.length true l).length
      (subStandaloneF l.length true l)).length none
    (subAfterPunctF (subStandaloneF l.length true l).length
      (subStandaloneF l.length true l))

/-- `strip_footnote_numbers(text, log, money_terms)` (Step2 lines 61-112),
text part, with the default money terms. -/
def strip_footnote_numbers (cs : List Char) : List Char :=
  joinNl ((splitlines cs).map stripLineFootnotes)

/-- Substring test (used to state claims about paragraph separators). -/
def containsSub (pat : List Char) : List Char → Bool
  | [] => pat.isEmpty
  | c :: rest => pat.isPrefixOf (c :: rest) || containsSub pat rest

/-- Every maximal digit run of the list has length at least four; `pdig`
records whether the previous character was a digit (so that the length test
applies exactly at the start of each run). -/
def noShortDigitRuns : Bool → List Char → Bool
  | _, [] => true
  | pdig, c :: rest =>
    if isDigitC c then
      (pdig || decide (4 ≤ (c :: rest.takeWhile isDigitC).length)) &&
        noShortDigitRuns true rest
    else noShortDigitRuns false rest

/-! ### Step 3: chapter structurer (`Step3_structuring_v1.py`) -/

/-- `[A-Z]`. -/
def isUpperA (c : Char) : Bool := 'A' ≤ c && c ≤ 'Z'

/-- A `CHAPTER_PAT = re.compile(rf"(?m)^(CHAPTER)\s+([IVXLCDM]+)\b")` match
attempt at a line-start position (Step3 line 12): literal `CHAPTER`, a
whitespace run (`\s+`, which may span newlines), a maximal Roman-numeral
run, and a trailing word boundary; backtracking cannot shorten either run
(a space is not a Roman letter, and a Roman letter is a word character).
Returns the match length. -/
def chapterMatchAt (cs : List Char) : Option Nat :=
  if "CHAPTER".data.isPrefixOf cs then
    let r1 := (cs.drop 7).takeWhile isSpace
    let r2 := (cs.drop 7).dropWhile isSpace
    let rom := r2.takeWhile isRomanUp
    if !r1.isEmpty && !rom.isEmpty && bdryA (r2.dropWhile isRomanUp) then
      some (7 + r1.length + rom.length)
    else none
  else none

/-- `CHAPTER_PAT.finditer(text)`: all non-overlapping matches in order,
as (start, end) offsets; `atLS` tracks line starts (offset 0 or after a
newline).  A match ends after a Roman letter, so scanning resumes off a
line start. -/
def chapterMatchesF : Nat → Nat → Bool → List Char → List (Nat × Nat)
  | 0, _, _, _ => []
  | _ + 1, _, _, [] => []
  | fuel + 1, pos, atLS, c :: rest =>
    match (if atLS then chapterMatchAt (c :: rest) else none) with
    | some len =>
      (pos, pos + len) :: chapterMatchesF fuel (pos + len) false ((c :: rest).drop len)
    | none => chapterMatchesF fuel (pos + 1) (c == '\n') rest

def chapterMatches (cs : List Char) : List (Nat × Nat) :=
  chapterMatchesF cs.length 0 true cs

/-- `A1_RE = re.compile(r"\b[A-Z]{2,}\b")` iterated with the disallowed-token
skip (Step3 lines 15, 21-25, 105-110): the first maximal uppercase run of
length at least two with word boundaries on both sides whose token is
neither `CHAPTER` nor a pure Roman numeral.  Returns the match offset and
token.  A skipped (disallowed) match is consumed, as `finditer` does. -/
def firstA1F : Nat → Nat → Option Char → List Char → Option (Nat × List Char)
  | 0, _, _, _ => none
  | _ + 1, _, _, [] => none
  | fuel + 1, pos, prev, c :: rest =>
    if isUpperA c && bdryB prev && decide (2 ≤ (c :: rest.takeWhile isUpperA).length) &&
        bdryA (rest.dropWhile isUpperA) then
      if (c :: rest.takeWhile isUpperA) == "CHAPTER".data ||
          (c :: rest.takeWhile isUpperA).all isRomanUp then
        firstA1F fuel (pos + (c :: rest.takeWhile isUpperA).length)
          (some ((c :: rest.takeWhile isUpperA).getLastD c)) (rest.dropWhile isUpperA)
      else some (pos, c :: rest.takeWhile isUpperA)
    else firstA1F fuel (pos + 1) (some c) rest

/-- `A1_RE.finditer(block, search_from)` with the skip, as above; the
lookbehind at `search_from` sees the preceding character of `block`. -/
def firstA1 (block : List Char) (searchFrom : Nat) : Option (Nat × List Char) :=
  firstA1F (block.drop searchFrom).length searchFrom
    ((block.take searchFrom).getLast?) (block.drop searchFrom)

/-- `OPEN_QUOTES = "\"“”"` (Step3 line 16). -/
def OPEN_QUOTES : List Char := [qc, '“', '”']

/-- `_choose_insertion_index_for_A1(block, a1_start)` (Step3 lines 70-74).
The out-of-range default is never consulted at the call sites
(`0 < i ≤ block.length`). -/
def _choose_insertion_index_for_A1 (block : List Char) (i : Nat) : Nat :=
  if 1 < i ∧ block.getD (i - 1) (Char.ofNat 0) = ' ' ∧
      (block.getD (i - 2) (Char.ofNat 0)) ∈ OPEN_QUOTES then i - 2
  else if 0 < i ∧ (block.getD (i - 1) (Char.ofNat 0)) ∈ OPEN_QUOTES then i - 1
  else i

/-- The inserted separator `"\n\n" + HR + "\n"` (Step3 lines 13, 133). -/
def SEP : List Char := "\n\n---\n".data

/-- Processing of one chapter block (Step3 lines 100-148, text part):
find A1 starting at the end of the `CHAPTER <ROMAN>` match and insert the
separator at the chosen index. -/
def processBlock (block : List Char) (searchFrom : Nat) : List Char :=
  match firstA1 block searchFrom with
  | some (i, _) =>
    block.take (_choose_insertion_index_for_A1 block i) ++ SEP ++
      block.drop (_choose_insertion_index_for_A1 block i)
  | none => block

/-- `text[a:b]`. -/
def segment (cs : List Char) (a b : Nat) : List Char := (cs.drop a).take (b - a)

/-- The piece-assembly loop of `pass_break_before_first_allcaps_in_chapter`
(Step3 lines 95-151): emit the text before each span, the processed block,
and finally the text after the last span. -/
def passBlocks (cs : List Char) : Nat → List (Nat × Nat) → List Char
  | cur, [] => cs.drop cur
  | cur, (s, e) :: rest =>
    segment cs cur s ++
      processBlock (segment cs s (match rest with | (s2, _) :: _ => s2 | [] => cs.length))
        (e - s) ++
      passBlocks cs (match rest with | (s2, _) :: _ => s2 | [] => cs.length) rest

/-- `pass_break_before_first_allcaps_in_chapter(text)` (Step3 lines 88-160),
text part. -/
def pass_break_before_first_allcaps_in_chapter (cs : List Char) : List Char :=
  passBlocks cs 0 (chapterMatches cs)

/-- Modelled from the spec: a case-insensitive "CHAPTER numeral" line, where
per the data model (spec §3) a numeral is an uppercase Roman numeral or an
explicit alphanumeric token; read case-insensitively this is the word
"chapter" in either case, whitespace, and one alphanumeric token filling the
rest of the line.  Used only to state claim C1 as written, for comparison
with the code's `chap_line_ci` (which admits Roman numerals only). -/
def specChapterNumeralLineCI (l : List Char) : Bool :=
  let s := stripL l
  match matchPairs chapterPairs s with
  | none => false
  | some r1 =>
    let w := r1.takeWhile isSpace
    let rest := r1.dropWhile isSpace
    !w.isEmpty && !rest.isEmpty && rest.all (fun c => isAsciiLetter c || isDigitC c)

/-! ### Lemmas: span collection, merging, and the protected heading -/

/-- Specification of `findIdxFromAux`. -/
theorem findIdxFromAux_spec (f : List Char → Bool) :
    ∀ (ls : List (List Char)) (i p : Nat), findIdxFromAux f i ls = some p →
      i ≤ p ∧ p - i < ls.length ∧ f (ls.getD (p - i) []) = true := by
  intro ls
  induction ls with
  | nil => intro i p h; simp [findIdxFromAux] at h
  | cons l rest ih =>
    intro i p h
    rw [findIdxFromAux] at h
    split_ifs at h with hf
    · obtain rfl : i = p := by simpa using h
      simp [hf]
    · obtain ⟨h1, h2, h3⟩ := ih (i + 1) p h
      refine ⟨by omega, by simp; omega, ?_⟩
      have : p - i = (p - (i + 1)) + 1 := by omega
      rw [this]
      simpa using h3

/-- If the first chapter-heading index is `p`, then `p` is in range and line
`p` matches `chap_line_ci`. -/
theorem find_first_spec {lines : List (List Char)} {p : Nat}
    (h : _find_first_chapter_heading_idx lines = some p) :
    p < lines.length ∧ chapLineCI (lines.getD p []) = true := by
  obtain ⟨_, h2, h3⟩ := findIdxFromAux_spec chapLineCI lines 0 p h
  rw [Nat.sub_zero] at h3
  exact ⟨by simpa using h2, h3⟩

/-- Coverage of an index by a span list, in `Prop` form. -/
def Covered (spans : List (Nat × Nat)) (x : Nat) : Prop :=
  ∃ sp ∈ spans, sp.1 ≤ x ∧ x ≤ sp.2

theorem inDel_iff_covered {spans : List (Nat × Nat)} {x : Nat} :
    inDel spans x = true ↔ Covered spans x := by
  simp [inDel, Covered, List.any_eq_true, Bool.and_eq_true, decide_eq_true_eq]

theorem mergeAux_covers :
    ∀ (l : List (Nat × Nat)) (cur : Nat × Nat) (x : Nat), Covered (mergeAux cur l) x →
      (cur.1 ≤ x ∧ x ≤ cur.2) ∨ Covered l x := by
  intro l
  induction l with
  | nil =>
    intro cur x h
    obtain ⟨sp, hsp, hx⟩ := h
    simp only [mergeAux, List.mem_singleton] at hsp
    subst hsp
    exact Or.inl hx
  | cons hd tl ih =>
    intro cur x h
    obtain ⟨lo, hi⟩ := hd
    rw [mergeAux] at h
    split_ifs at h with hle
    · rcases ih (cur.1, max cur.2 hi) x h with hcur | hcov
      · simp only at hcur
        by_cases hc2 : x ≤ cur.2
        · exact Or.inl ⟨hcur.1, hc2⟩
        · refine Or.inr ⟨(lo, hi), List.mem_cons_self _ _, ?_, ?_⟩ <;> omega
      · exact Or.inr (hcov.imp fun sp h => ⟨List.mem_cons_of_mem _ h.1, h.2⟩)
    · obtain ⟨sp, hsp, hx⟩ := h
      rcases List.mem_cons.mp hsp with rfl | hsp'
      · exact Or.inl hx
      · rcases ih (lo, hi) x ⟨sp, hsp', hx⟩ with hcur | hcov
        · exact Or.inr ⟨(lo, hi), List.mem_cons_self _ _, hcur⟩
        · exact Or.inr (hcov.imp fun sp h => ⟨List.mem_cons_of_mem _ h.1, h.2⟩)

theorem mergeSpans_covers {l : List (Nat × Nat)} {x : Nat} (h : Covered (mergeSpans l) x) :
    Covered l x := by
  cases l with
  | nil => simpa [mergeSpans] using h
  | cons s rest =>
    rw [mergeSpans] at h
    rcases mergeAux_covers rest s x h with hs | hcov
    · exact ⟨s, List.mem_cons_self _ _, hs⟩
    · exact hcov.imp fun sp h => ⟨List.mem_cons_of_mem _ h.1, h.2⟩

theorem insSpan_mem {x : Nat × Nat} :
    ∀ {l : List (Nat × Nat)} {sp}, sp ∈ insSpan x l → sp = x ∨ sp ∈ l := by
  intro l
  induction l with
  | nil => intro sp h; simpa [insSpan] using h
  | cons y ys ih =>
    intro sp h
    rw [insSpan] at h
    split_ifs at h
    · simpa using h
    · rcases List.mem_cons.mp h with rfl | h'
      · exact Or.inr (List.mem_cons_self _ _)
      · rcases ih h' with rfl | h''
        · exact Or.inl rfl
        · exact Or.inr (List.mem_cons_of_mem _ h'')

theorem sortSpans_mem : ∀ {l : List (Nat × Nat)} {sp}, sp ∈ sortSpans l → sp ∈ l := by
  intro l
  induction l with
  | nil => intro sp h; simpa [sortSpans] using h
  | cons y ys ih =>
    intro sp h
    rw [sortSpans] at h
    rcases insSpan_mem h with rfl | h'
    · exact List.mem_cons_self _ _
    · exact List.mem_cons_of_mem _ (ih h')

/-- An accepted (shrunk) span never contains the protected index. -/
theorem shrinkSpan_protected (p lo1 hi1 : Nat)
    (hle : (shrinkSpan (some p) lo1 hi1).1 ≤ (shrinkSpan (some p) lo1 hi1).2) :
    ¬((shrinkSpan (some p) lo1 hi1).1.toNat ≤ p ∧ p ≤ (shrinkSpan (some p) lo1 hi1).2.toNat) := by
  simp only [shrinkSpan] at hle ⊢
  split_ifs at hle ⊢ <;> omega

/-- The three possible shapes of an accepted span after the shrink. -/
theorem shrinkSpan_cases (p? : Option Nat) (lo1 hi1 : Nat)
    (hle : (shrinkSpan p? lo1 hi1).1 ≤ (shrinkSpan p? lo1 hi1).2) :
    ((shrinkSpan p? lo1 hi1).1.toNat = lo1 ∧ (shrinkSpan p? lo1 hi1).2.toNat = hi1) ∨
    (∃ p, p? = some p ∧ (shrinkSpan p? lo1 hi1).1.toNat = p + 1 ∧
      (shrinkSpan p? lo1 hi1).2.toNat = hi1) ∨
    (∃ p, p? = some p ∧ 1 ≤ p ∧ (shrinkSpan p? lo1 hi1).1.toNat = lo1 ∧
      (shrinkSpan p? lo1 hi1).2.toNat = p - 1) := by
  cases p? with
  | none => simp [shrinkSpan]
  | some p =>
    simp only [shrinkSpan, Option.some.injEq] at hle ⊢
    split_ifs at hle ⊢
    · exact Or.inr (Or.inl ⟨p, rfl, by omega, by omega⟩)
    · exact Or.inr (Or.inr ⟨p, rfl, by omega, by omega, by omega⟩)
    · exact Or.inl ⟨by omega, by omega⟩

/-- Any span produced by one loop iteration is either already in the
accumulator or an accepted span of the iteration's shape. -/
theorem buildStep_mem_cases {lines : List (List Char)} {p? : Option Nat} {n : Nat}
    {acc : List (Nat × Nat)} {i : Nat} {sp : Nat × Nat}
    (h : sp ∈ buildStep lines p? n acc i) :
    sp ∈ acc ∨ ∃ lo1 hi1,
      (shrinkSpan p? lo1 hi1).1 ≤ (shrinkSpan p? lo1 hi1).2 ∧
      sp = ((shrinkSpan p? lo1 hi1).1.toNat, (shrinkSpan p? lo1 hi1).2.toNat) ∧
      ((lo1 = 0 ∨ isBodyLine (lines.getD (lo1 - 1) []) = true) ∨
       (hi1 = n - 1 ∨ isBodyLine (lines.getD (hi1 + 1) []) = true)) := by
  simp only [buildStep] at h
  split_ifs at h with h1 h2 h3
  · exact Or.inl h
  · rw [List.mem_append] at h
    rcases h with h | h
    · exact Or.inl h
    · simp only [List.mem_singleton] at h
      simp only [Bool.and_eq_true, decide_eq_true_eq, Bool.or_eq_true, beq_iff_eq] at h3
      exact Or.inr ⟨absorbUp lines p? (expandUp lines p? i) 3,
        absorbDown lines p? n (expandDown lines p? n i) 3, h3.1, h, h3.2⟩
  · exact Or.inl h
  · exact Or.inl h

/-- Fold invariant: if each step only appends spans satisfying `P`, the fold
result satisfies `P` throughout. -/
theorem foldl_spans_inv (P : Nat × Nat → Prop)
    (step : List (Nat × Nat) → Nat → List (Nat × Nat))
    (hstep : ∀ acc i sp, sp ∈ step acc i → sp ∈ acc ∨ P sp) :
    ∀ (l : List Nat) (acc : List (Nat × Nat)), (∀ sp ∈ acc, P sp) →
      ∀ sp ∈ l.foldl step acc, P sp := by
  intro l
  induction l with
  | nil => intro acc hacc; simpa using hacc
  | cons x xs ih =>
    intro acc hacc
    simp only [List.foldl_cons]
    refine ih _ ?_
    intro sp hsp
    rcases hstep acc x sp hsp with h | h
    · exact hacc sp h
    · exact h

/-- No collected span contains the protected heading index. -/
theorem buildSpans_protected (lines : List (List Char)) (p : Nat) :
    ∀ sp ∈ buildSpans lines (some p), ¬(sp.1 ≤ p ∧ p ≤ sp.2) := by
  refine foldl_spans_inv _ _ ?_ _ _ (by simp)
  intro acc i sp hsp
  rcases buildStep_mem_cases hsp with h | ⟨lo1, hi1, hle, rfl, _⟩
  · exact Or.inl h
  · exact Or.inr (shrinkSpan_protected p lo1 hi1 hle)

/-! ### The protected heading is always a body line -/

theorem matchPairs_decomp :
    ∀ (ps : List (Char × Char)) (cs r : List Char), matchPairs ps cs = some r →
      ∃ pre, cs = pre ++ r ∧
        List.Forall₂ (fun (c : Char) (pr : Char × Char) => c = pr.1 ∨ c = pr.2) pre ps := by
  intro ps
  induction ps with
  | nil =>
    intro cs r h
    simp only [matchPairs, Option.some.injEq] at h
    exact ⟨[], by simp [h], List.Forall₂.nil⟩
  | cons hd tl ih =>
    intro cs r h
    obtain ⟨lo, up⟩ := hd
    cases cs with
    | nil => simp [matchPairs] at h
    | cons c cs' =>
      rw [matchPairs] at h
      split_ifs at h with hc
      obtain ⟨pre, hpre, hf⟩ := ih cs' r h
      refine ⟨c :: pre, by simp [hpre], List.Forall₂.cons ?_ hf⟩
      simpa using hc

theorem isLetterX_of_romanCI {c : Char} (h : isRomanCIc c = true) : isLetterX c = true := by
  simp only [isRomanCIc, Bool.or_eq_true, beq_iff_eq] at h
  rcases h with
    (((((((((((((rfl | rfl) | rfl) | rfl) | rfl) | rfl) | rfl) | rfl) | rfl) | rfl) | rfl)
      | rfl) | rfl) | rfl) <;> decide

theorem not_isLetterX_of_isSpace {c : Char} (h : isSpace c = true) : isLetterX c = false := by
  simp only [isSpace, Bool.or_eq_true, beq_iff_eq] at h
  rcases h with ((((rfl | rfl) | rfl) | rfl) | rfl) | rfl <;> decide

theorem forall2_letter_aux : ∀ {pre : List Char} {ps : List (Char × Char)},
    List.Forall₂ (fun (c : Char) (pr : Char × Char) => c = pr.1 ∨ c = pr.2) pre ps →
    (∀ pr ∈ ps, isLetterX pr.1 = true ∧ isLetterX pr.2 = true) →
    ∀ c ∈ pre, isLetterX c = true := by
  intro pre ps hf
  induction hf with
  | nil => intro _; simp
  | @cons c pr pre' ps' hrel _ ih =>
    intro hps x hx
    rcases List.mem_cons.mp hx with rfl | hx'
    · have := hps pr (List.mem_cons_self _ _)
      rcases hrel with rfl | rfl
      · exact this.1
      · exact this.2
    · exact ih (fun q hq => hps q (List.mem_cons_of_mem _ hq)) x hx'

theorem forall2_chapter_letter {pre : List Char}
    (hf : List.Forall₂ (fun (c : Char) (pr : Char × Char) => c = pr.1 ∨ c = pr.2)
      pre chapterPairs) :
    ∀ c ∈ pre, isLetterX c = true :=
  forall2_letter_aux hf (by decide)

/-- Letters accumulate into the current run: with `prev = true` they add
no new run. -/
theorem countRunsAux_letters_true (xs rest : List Char)
    (hall : ∀ c ∈ xs, isLetterX c = true) :
    countRunsAux true (xs ++ rest) = countRunsAux true rest := by
  induction xs with
  | nil => rfl
  | cons c xs' ih =>
    have hc := hall c (List.mem_cons_self _ _)
    simp only [List.cons_append, countRunsAux, hc, List.append_eq]
    simpa using ih fun x hx => hall x (List.mem_cons_of_mem _ hx)

/-- A nonempty letter run starting with `prev = false` contributes exactly
one word. -/
theorem countRunsAux_letters_false (xs rest : List Char) (hx : xs ≠ [])
    (hall : ∀ c ∈ xs, isLetterX c = true) :
    countRunsAux false (xs ++ rest) = 1 + countRunsAux true rest := by
  cases xs with
  | nil => cases hx rfl
  | cons c xs' =>
    have hc := hall c (List.mem_cons_self _ _)
    simp only [List.cons_append, countRunsAux, hc, List.append_eq]
    rw [countRunsAux_letters_true xs' rest fun x hx => hall x (List.mem_cons_of_mem _ hx)]
    simp

/-- Non-letters contribute nothing and reset the run state. -/
theorem countRunsAux_nonletters (xs rest : List Char) (b : Bool)
    (hall : ∀ c ∈ xs, isLetterX c = false) :
    countRunsAux b (xs ++ rest) = countRunsAux (if xs.isEmpty then b else false) rest := by
  induction xs generalizing b with
  | nil => simp
  | cons c xs' ih =>
    have hc := hall c (List.mem_cons_self _ _)
    simp only [List.cons_append, countRunsAux, hc, List.append_eq]
    rw [ih false fun x hx => hall x (List.mem_cons_of_mem _ hx)]
    cases xs' <;> simp

/-- A line matching `chap_line_ci` always counts at least two word tokens
("chapter" and the numeral), hence is a body line. -/
theorem isBodyLine_of_chapLineCI {l : List Char} (h : chapLineCI l = true) :
    isBodyLine l = true := by
  rw [chapLineCI] at h
  cases hm : matchPairs chapterPairs (stripL l) with
  | none => rw [hm] at h; simp at h
  | some r1 =>
    rw [hm] at h
    simp only [Bool.and_eq_true, Bool.not_eq_true', List.isEmpty_eq_false] at h
    obtain ⟨⟨hw, hrom⟩, _⟩ := h
    obtain ⟨pre, hs, hf⟩ := matchPairs_decomp _ _ _ hm
    have hpre_letters : ∀ c ∈ pre, isLetterX c = true := forall2_chapter_letter hf
    have hpre_ne : pre ≠ [] := by
      intro hnil
      have := hf.length_eq
      rw [hnil] at this
      simp [chapterPairs] at this
    have hw_all : ∀ c ∈ r1.takeWhile isSpace, isLetterX c = false := fun c hc =>
      not_isLetterX_of_isSpace (List.mem_takeWhile_imp hc)
    have hrom_all : ∀ c ∈ (r1.dropWhile isSpace).takeWhile isRomanCIc, isLetterX c = true :=
      fun c hc => isLetterX_of_romanCI (List.mem_takeWhile_imp hc)
    have hr1 : r1 = r1.takeWhile isSpace ++ r1.dropWhile isSpace :=
      (List.takeWhile_append_dropWhile _ _).symm
    have hr2 : r1.dropWhile isSpace =
        (r1.dropWhile isSpace).takeWhile isRomanCIc ++
        (r1.dropWhile isSpace).dropWhile isRomanCIc :=
      (List.takeWhile_append_dropWhile _ _).symm
    have hcount : 2 ≤ countWords (stripL l) := by
      rw [countWords, hs, hr1, hr2]
      rw [countRunsAux_letters_false pre _ hpre_ne hpre_letters]
      rw [countRunsAux_nonletters _ _ _ hw_all]
      have hwe : (r1.takeWhile isSpace).isEmpty = false := by
        simpa [List.isEmpty_eq_false] using hw
      rw [hwe]
      simp only [Bool.false_eq_true, if_false]
      rw [countRunsAux_letters_false _ _ hrom hrom_all]
      omega
    have hne : stripL l ≠ [] := by
      rw [hs]
      exact fun hcon => hpre_ne (List.append_eq_nil.mp hcon).1
    rw [isBodyLine]
    simp only [Bool.and_eq_true, Bool.or_eq_true, Bool.not_eq_true', List.isEmpty_eq_false]
    exact ⟨hne, Or.inr (by simpa using hcount)⟩

/-- Every collected span either touches a document edge or has a body line
just outside one of its ends. -/
theorem buildSpans_edge_or_body (lines : List (List Char)) :
    ∀ sp ∈ buildSpans lines (_find_first_chapter_heading_idx lines),
      (sp.1 = 0 ∨ isBodyLine (lines.getD (sp.1 - 1) []) = true) ∨
      (sp.2 = lines.length - 1 ∨ isBodyLine (lines.getD (sp.2 + 1) []) = true) := by
  have hbody : ∀ p, _find_first_chapter_heading_idx lines = some p →
      isBodyLine (lines.getD p []) = true := fun p hp =>
    isBodyLine_of_chapLineCI (find_first_spec hp).2
  refine foldl_spans_inv _ _ ?_ _ _ (by simp)
  intro acc i sp hsp
  rcases buildStep_mem_cases hsp with h | ⟨lo1, hi1, hle, rfl, hok⟩
  · exact Or.inl h
  · refine Or.inr ?_
    rcases shrinkSpan_cases _ lo1 hi1 hle with ⟨he1, he2⟩ | ⟨p, hp, he1, he2⟩ |
      ⟨p, hp, hp1, he1, he2⟩
    · rw [he1, he2]; exact hok
    · rw [he1, he2]
      refine Or.inl (Or.inr ?_)
      simpa using hbody p hp
    · rw [he1, he2]
      refine Or.inr (Or.inr ?_)
      have hq : p - 1 + 1 = p := by omega
      rw [hq]
      exact hbody p hp

/-! ### Round trip between `splitlines` and `joinNl` -/

theorem splitOnP_no_sep {p : Char → Bool} :
    ∀ (cs : List Char), ∀ l ∈ cs.splitOnP p, ∀ x ∈ l, ¬ p x = true := by
  intro cs
  induction cs with
  | nil =>
    intro l hl x hx
    rw [List.splitOnP_nil] at hl
    simp only [List.mem_singleton] at hl
    subst hl
    simp at hx
  | cons c cs ih =>
    intro l hl x hx
    rw [List.splitOnP_cons] at hl
    split_ifs at hl with hc
    · rcases List.mem_cons.mp hl with rfl | hl'
      · simp at hx
      · exact ih l hl' x hx
    · cases h' : cs.splitOnP p with
      | nil => exact absurd h' (List.splitOnP_ne_nil _ cs)
      | cons hd tl =>
        rw [h'] at hl
        simp only [List.modifyHead] at hl
        rcases List.mem_cons.mp hl with rfl | hl'
        · rcases List.mem_cons.mp hx with rfl | hx'
          · simpa using hc
          · exact ih hd (h' ▸ List.mem_cons_self _ _) x hx'
        · exact ih l (h' ▸ List.mem_cons_of_mem _ hl') x hx

theorem splitlines_no_nl {cs : List Char} : ∀ l ∈ splitlines cs, '\n' ∉ l := by
  intro l hl hx
  rw [splitlines] at hl
  have hl' : l ∈ cs.splitOn '\n' := by
    split_ifs at hl with hlast
    · exact (List.dropLast_sublist _).subset hl
    · exact hl
  rw [List.splitOn] at hl'
  exact splitOnP_no_sep cs l hl' '\n' hx (by simp)

theorem splitlines_joinNl_mem {ls : List (List Char)} (hnl : ∀ l ∈ ls, '\n' ∉ l)
    {x} (hx : x ∈ ls) (hne : x ≠ []) : x ∈ splitlines (joinNl ls) := by
  have hlsne : ls ≠ [] := List.ne_nil_of_mem hx
  have hround : (joinNl ls).splitOn '\n' = ls := by
    simpa [joinNl] using List.splitOn_intercalate ls '\n' hnl hlsne
  rw [splitlines, hround]
  split_ifs with hlast
  · have hgl : ls.getLast hlsne = [] := by
      have h2 := List.getLast?_eq_getLast ls hlsne
      rw [h2] at hlast
      exact (Option.some.injEq _ _).mp hlast
    have hsplit := List.dropLast_concat_getLast hlsne
    rw [← hsplit] at hx
    rcases List.mem_append.mp hx with h | h
    · exact h
    · rw [List.mem_singleton, hgl] at h
      exact absurd h hne
  · exact hx

/-! ### `keepLines` lemmas -/

theorem keepLines_subset {f : Nat → Bool} :
    ∀ (ls : List (List Char)) (i : Nat) {x}, x ∈ keepLines f i ls → x ∈ ls := by
  intro ls
  induction ls with
  | nil => intro i x h; simpa [keepLines] using h
  | cons l rest ih =>
    intro i x h
    rw [keepLines] at h
    split_ifs at h
    · rcases List.mem_cons.mp h with rfl | h'
      · exact List.mem_cons_self _ _
      · exact List.mem_cons_of_mem _ (ih _ h')
    · exact List.mem_cons_of_mem _ (ih _ h)

theorem keepLines_mem {f : Nat → Bool} :
    ∀ (ls : List (List Char)) (i p : Nat), p < ls.length → f (i + p) = true →
      ls.getD p [] ∈ keepLines f i ls := by
  intro ls
  induction ls with
  | nil => intro i p h; simp at h
  | cons l rest ih =>
    intro i p hp hf
    cases p with
    | zero =>
      rw [Nat.add_zero] at hf
      rw [keepLines, if_pos hf]
      simp
    | succ q =>
      have hf' : f ((i + 1) + q) = true := by
        rw [show i + 1 + q = i + (q + 1) by omega]
        exact hf
      have hmem := ih (i + 1) q (by simpa using hp) hf'
      rw [keepLines]
      split_ifs
      · exact List.mem_cons_of_mem _ (by simpa using hmem)
      · simpa using hmem

theorem removeHeaderFooterLines_subset {lines : List (List Char)} {x}
    (h : x ∈ removeHeaderFooterLines lines) : x ∈ lines := by
  rw [removeHeaderFooterLines] at h
  split_ifs at h
  · exact h
  · exact keepLines_subset lines 0 h

/-! ### Claim C1 -/

/-- C1 (amended): for every input document, after
`remove_header_footer_blocks`, the line at the index found by
`_find_first_chapter_heading_idx` — the first case-insensitive
"CHAPTER Roman-numeral" line, which is the protection the code implements —
still appears verbatim as a line of the output. -/
theorem C1_first_chapter_line_preserved (s : String) (p : Nat)
    (h : _find_first_chapter_heading_idx (splitlines s.data) = some p) :
    (splitlines s.data).getD p [] ∈ splitlines (remove_header_footer_blocks s).data := by
  obtain ⟨hlt, hchap⟩ := find_first_spec h
  rw [remove_header_footer_blocks, h]
  split_ifs with hemp
  · rw [List.getD_eq_get _ _ hlt]
    exact List.get_mem _ _ _
  · show (splitlines s.data).getD p [] ∈
      splitlines (joinNl (removeHeaderFooterLines (splitlines s.data)))
    have hmem : (splitlines s.data).getD p [] ∈
        removeHeaderFooterLines (splitlines s.data) := by
      rw [removeHeaderFooterLines, h, if_neg hemp]
      apply keepLines_mem _ _ _ hlt
      rw [Nat.zero_add, Bool.not_eq_true']
      by_contra hcon
      rw [Bool.not_eq_false] at hcon
      obtain ⟨sp, hsp, hx⟩ := mergeSpans_covers (inDel_iff_covered.mp hcon)
      have hsp' := sortSpans_mem hsp
      rw [h] at hsp'
      exact buildSpans_protected _ _ sp hsp' hx
    refine splitlines_joinNl_mem ?_ hmem ?_
    · intro l hl
      exact splitlines_no_nl l (removeHeaderFooterLines_subset hl)
    · intro hnil
      rw [hnil] at hchap
      exact absurd hchap (by decide)

/-- C1 counterexample: "Chapter 5" is the first case-insensitive
"CHAPTER numeral" line of the document in the spec's sense (numeral an
alphanumeric token), yet `remove_header_footer_blocks` deletes it: the claim
as stated is false. -/
theorem C1_counterexample :
    specChapterNumeralLineCI "Chapter 5".data = true ∧
    (splitlines "Chapter 5\nVolume 1\nbody text here.".data).getD 0 [] = "Chapter 5".data ∧
    "Chapter 5".data ∉
      splitlines (remove_header_footer_blocks "Chapter 5\nVolume 1\nbody text here.").data := by
  refine ⟨by decide, by decide, by decide⟩

/-- Witness for C1 at a concrete input where a block is actually removed. -/
theorem C1_witness :
    _find_first_chapter_heading_idx
      (splitlines "Volume the First\nchapter iv\nSome body text.".data) = some 1 ∧
    (splitlines "Volume the First\nchapter iv\nSome body text.".data).getD 1 [] ∈
      splitlines (remove_header_footer_blocks "Volume the First\nchapter iv\nSome body text.").data :=
  ⟨by decide, C1_first_chapter_line_preserved "Volume the First\nchapter iv\nSome body text." 1
    (by decide)⟩

/-! ### Claim C2 -/

/-- C2 (amended): every candidate span the Structural Block Remover accepts
either has a body line adjacent to and outside one of its ends, or that end
lies flush against a document edge; consequently a document consisting
entirely of non-body lines can be deleted in full through the edge case. -/
theorem C2_accepted_span_edge_or_body (lines : List (List Char)) :
    ∀ sp ∈ buildSpans lines (_find_first_chapter_heading_idx lines),
      (sp.1 = 0 ∨ isBodyLine (lines.getD (sp.1 - 1) []) = true) ∨
      (sp.2 = lines.length - 1 ∨ isBodyLine (lines.getD (sp.2 + 1) []) = true) :=
  buildSpans_edge_or_body lines

/-- C2 counterexample: the single-line document "VOLUME 1" has no body line
at all, yet the stage deletes the entire document (output `""`) — the claim
"no input document is ever deleted in its entirety when it contains no real
body line" is false on the code. -/
theorem C2_counterexample :
    (∀ l ∈ splitlines "VOLUME 1".data, isBodyLine l = false) ∧
    splitlines "VOLUME 1".data ≠ [] ∧
    remove_header_footer_blocks "VOLUME 1" = "" := by
  refine ⟨by decide, by decide, by decide⟩

/-- Witness for C2 at a concrete input with an accepted span. -/
theorem C2_witness :
    ((1, 5) ∈ buildSpans
      (splitlines "A body line.\n12\n•\nVolume II\n\nChapter 3\nAnother body line.".data)
      (_find_first_chapter_heading_idx
        (splitlines "A body line.\n12\n•\nVolume II\n\nChapter 3\nAnother body line.".data))) ∧
    ((1 = 0 ∨ isBodyLine
        ((splitlines "A body line.\n12\n•\nVolume II\n\nChapter 3\nAnother body line.".data).getD
          (1 - 1) []) = true) ∨
     (5 = (splitlines "A body line.\n12\n•\nVolume II\n\nChapter 3\nAnother body line.".data).length - 1 ∨
      isBodyLine
        ((splitlines "A body line.\n12\n•\nVolume II\n\nChapter 3\nAnother body line.".data).getD
          (5 + 1) []) = true)) :=
  ⟨by decide,
    C2_accepted_span_edge_or_body
      (splitlines "A body line.\n12\n•\nVolume II\n\nChapter 3\nAnother body line.".data)
      (1, 5) (by decide)⟩

/-! ### Claim C10: the preservation rule -/

theorem dropWhile_idem (p : Char → Bool) :
    ∀ l : List Char, (l.dropWhile p).dropWhile p = l.dropWhile p := by
  intro l
  induction l with
  | nil => rfl
  | cons c t ih =>
    by_cases hc : p c
    · rw [List.dropWhile_cons_of_pos hc, ih]
    · rw [List.dropWhile_cons_of_neg hc, List.dropWhile_cons_of_neg hc]

theorem dropWhile_head_false {p : Char → Bool} :
    ∀ {l : List Char} {c t}, l.dropWhile p = c :: t → p c = false := by
  intro l
  induction l with
  | nil => intro c t h; simp at h
  | cons d t' ih =>
    intro c t h
    by_cases hd : p d
    · rw [List.dropWhile_cons_of_pos hd] at h
      exact ih h
    · rw [List.dropWhile_cons_of_neg hd] at h
      obtain ⟨rfl, -⟩ := (List.cons.injEq d t' c t).mp h
      simpa using hd

theorem stripL_idem (cs : List Char) : stripL (stripL cs) = stripL cs := by
  unfold stripL
  have h2 : ((cs.dropWhile isSpace).reverse.dropWhile isSpace).dropWhile isSpace =
      (cs.dropWhile isSpace).reverse.dropWhile isSpace := dropWhile_idem _ _
  have hyA : ((cs.dropWhile isSpace).reverse.dropWhile isSpace).reverse <+:
      cs.dropWhile isSpace := by
    rw [← List.reverse_suffix]
    have hsuf : List.IsSuffix ((cs.dropWhile isSpace).reverse.dropWhile isSpace)
        ((cs.dropWhile isSpace).reverse) := List.dropWhile_suffix isSpace
    simpa using hsuf
  have h1 : ((cs.dropWhile isSpace).reverse.dropWhile isSpace).reverse.dropWhile isSpace =
      ((cs.dropWhile isSpace).reverse.dropWhile isSpace).reverse := by
    cases hy : ((cs.dropWhile isSpace).reverse.dropWhile isSpace).reverse with
    | nil => simp
    | cons c t =>
      obtain ⟨r, hr⟩ := hyA
      rw [hy] at hr
      have hcs : cs.dropWhile isSpace = c :: (t ++ r) := by
        rw [← hr]; simp
      have := dropWhile_head_false hcs
      rw [List.dropWhile_cons_of_neg (by simp [this])]
  rw [h1, List.reverse_reverse, h2]

theorem stripL_subset {l : List Char} : ∀ x ∈ stripL l, x ∈ l := by
  intro x hx
  rw [stripL] at hx
  rw [List.mem_reverse] at hx
  have hsub1 : List.Sublist ((l.dropWhile isSpace).reverse.dropWhile isSpace)
      ((l.dropWhile isSpace).reverse) := List.dropWhile_sublist isSpace
  have h1 := hsub1.subset hx
  rw [List.mem_reverse] at h1
  have hsub2 : List.Sublist (l.dropWhile isSpace) l := List.dropWhile_sublist isSpace
  exact hsub2.subset h1

/-! ### Claim C4: encoding repair -/

theorem mem_of_isPrefixOf : ∀ {pat l : List Char}, pat.isPrefixOf l = true →
    ∀ x ∈ pat, x ∈ l := by
  intro pat
  induction pat with
  | nil => intro l _ x hx; simp at hx
  | cons p ps ih =>
    intro l h x hx
    cases l with
    | nil => simp [List.isPrefixOf] at h
    | cons c cs =>
      simp only [List.isPrefixOf, Bool.and_eq_true, beq_iff_eq] at h
      rcases List.mem_cons.mp hx with rfl | hx'
      · exact h.1 ▸ List.mem_cons_self _ _
      · exact List.mem_cons_of_mem _ (ih h.2 x hx')

/-- `str.replace` is the identity when some character of the pattern never
occurs in the text. -/
theorem replaceAllF_id {pat repl : List Char} {b : Char} (hb : b ∈ pat) :
    ∀ (fuel : Nat) (cs : List Char), (∀ c ∈ cs, c ≠ b) →
      replaceAllF pat repl fuel cs = cs := by
  intro fuel
  induction fuel with
  | zero => intro cs _; rfl
  | succ fuel ih =>
    intro cs hcs
    cases cs with
    | nil => rfl
    | cons c rest =>
      rw [replaceAllF]
      have hpfx : pat.isPrefixOf (c :: rest) = false := by
        by_contra hcon
        rw [Bool.not_eq_false] at hcon
        exact hcs b (mem_of_isPrefixOf hcon b hb) rfl
      rw [hpfx]
      simp only [Bool.and_false, Bool.false_eq_true, if_false]
      rw [ih rest fun x hx => hcs x (List.mem_cons_of_mem _ hx)]

theorem replaceAll_id {pat repl : List Char} {b : Char} (hb : b ∈ pat)
    {cs : List Char} (hcs : ∀ c ∈ cs, c ≠ b) : replaceAll pat repl cs = cs :=
  replaceAllF_id hb cs.length cs hcs

/-- A fold of `str.replace` passes over texts whose characters all satisfy
`P` is the identity when every pattern contains a character violating `P`. -/
theorem foldl_replace_id (entries : List (List Char × List Char)) (P : Char → Bool)
    (hent : ∀ kv ∈ entries, ∃ b ∈ kv.1, P b = false) :
    ∀ cs : List Char, (∀ c ∈ cs, P c = true) →
      entries.foldl (fun t kv => replaceAll kv.1 kv.2 t) cs = cs := by
  induction entries with
  | nil => intro cs _; rfl
  | cons kv rest ih =>
    intro cs hcs
    obtain ⟨b, hb, hPb⟩ := hent kv (List.mem_cons_self _ _)
    simp only [List.foldl_cons]
    rw [replaceAll_id hb fun c hc hcb => by
      rw [hcb] at hc
      rw [hcs b hc] at hPb
      exact Bool.noConfusion hPb]
    exact ih (fun q hq => hent q (List.mem_cons_of_mem _ hq)) cs hcs

/-- Every key of the Step 1 mojibake table contains a character outside the
word-token class (its second byte-character), so `fix_word` never finds a
key inside a matched token. -/
theorem step1FrenchMap_keys_broken :
    ∀ kv ∈ step1FrenchMap, ∃ b ∈ kv.1, isFrWordChar b = false := by decide

theorem fixWord_id {run : List Char} (h : ∀ c ∈ run, isFrWordChar c = true) :
    fixWord run = run :=
  foldl_replace_id _ _ step1FrenchMap_keys_broken run h

/-- `_apply_french_utf8_latin1_fixes` is the identity on every input: the
word regex only matches runs of word-token characters, and no mojibake key
fits inside such a run. -/
theorem frTokenSub_id : ∀ (fuel : Nat) (cs : List Char), frTokenSub fuel cs = cs := by
  intro fuel
  induction fuel with
  | zero => intro cs; rfl
  | succ fuel ih =>
    intro cs
    cases cs with
    | nil => rfl
    | cons c rest =>
      rw [frTokenSub]
      split_ifs with hc hlen
      · rw [fixWord_id ?hall, ih]
        · exact congrArg (c :: ·) (List.takeWhile_append_dropWhile _ _)
        case hall =>
          intro x hx
          rcases List.mem_cons.mp hx with rfl | hx'
          · exact hc
          · exact List.mem_takeWhile_imp hx'
      · rw [ih]
        exact congrArg (c :: ·) (List.takeWhile_append_dropWhile _ _)
      · rw [ih]

theorem applyFrenchFixesL_id (cs : List Char) : applyFrenchFixesL cs = cs :=
  frTokenSub_id cs.length cs

/-- C4 (amended): the Step 1 word-scoped encoding repair replaces nothing at
all (every mojibake key straddles the word-token class, so no key ever lies
inside a matched token), while the Step 2 `french_and_artifacts` pass
replaces every occurrence unconditionally — embedded or standalone. -/
theorem C4_encoding_repair_behavior :
    (∀ s : String, _apply_french_utf8_latin1_fixes s = s) ∧
    french_and_artifacts "cafÃ©s".data = "cafés".data ∧
    _apply_french_utf8_latin1_fixes "cafÃ©s" = "cafÃ©s" := by
  refine ⟨?_, by decide, by decide⟩
  intro s
  rw [_apply_french_utf8_latin1_fixes, applyFrenchFixesL_id]

/-- C4 counterexample: the mojibake key "Ã©" standing alone in " Ã© " is
adjacent only to spaces (not word characters), yet `french_and_artifacts`
replaces it — the claim that standalone occurrences are left untouched is
false for the cited Step 2 code. -/
theorem C4_counterexample :
    french_and_artifacts " Ã© ".data = " é ".data ∧
    " Ã© ".data = [' ', 'Ã', '©', ' '] ∧
    isWordChar ' ' = false := by
  refine ⟨by decide, by decide, by decide⟩

/-! ### Claim C3: numeric artifact stripper -/

theorem isDigitC_false_of_letterX {c : Char} (h : isLetterX c = true) :
    isDigitC c = false := by
  by_contra hcon
  rw [Bool.not_eq_false] at hcon
  simp only [isDigitC, Bool.and_eq_true, decide_eq_true_eq] at hcon
  simp only [isLetterX, isAsciiLetter, Bool.or_eq_true, Bool.and_eq_true,
    decide_eq_true_eq] at h
  rcases h with (((⟨h1, _⟩ | ⟨h1, _⟩) | ⟨h1, _⟩) | ⟨h1, _⟩) | ⟨h1, _⟩ <;>
    exact absurd (le_trans h1 hcon.2) (by decide)

theorem isDigitC_false_of_isSpace {c : Char} (h : isSpace c = true) :
    isDigitC c = false := by
  simp only [isSpace, Bool.or_eq_true, beq_iff_eq] at h
  rcases h with ((((rfl | rfl) | rfl) | rfl) | rfl) | rfl <;> decide

theorem isDigitC_false_of_isS1 {c : Char} (h : isS1 c = true) : isDigitC c = false := by
  simp only [isS1, Bool.or_eq_true, beq_iff_eq] at h
  rcases h with ((((((((((((((hs | rfl) | rfl) | rfl) | rfl) | rfl) | rfl) | rfl) | rfl) | rfl) | rfl) | rfl) | rfl) | rfl) | rfl)
  · exact isDigitC_false_of_isSpace hs
  all_goals decide

theorem isDigitC_false_of_gluedPrev {c : Char} (h : isGluedPrev c = true) :
    isDigitC c = false := by
  simp only [isGluedPrev, Bool.or_eq_true, beq_iff_eq] at h
  rcases h with hl | rfl
  · exact isDigitC_false_of_letterX hl
  · decide

theorem noShort_tail {pdig : Bool} {c : Char} {rest : List Char}
    (h : noShortDigitRuns pdig (c :: rest) = true) :
    noShortDigitRuns (isDigitC c) rest = true := by
  rw [noShortDigitRuns] at h
  by_cases hd : isDigitC c
  · rw [if_pos hd] at h
    rw [hd]
    exact (Bool.and_eq_true .. ▸ h).2
  · rw [if_neg hd] at h
    have hd' : isDigitC c = false := by simpa using hd
    rw [hd']
    exact h

theorem digitsS2Match_none_of_noShort {cs : List Char}
    (h : noShortDigitRuns false cs = true) : digitsS2Match cs = none := by
  cases cs with
  | nil => rfl
  | cons c rest =>
    by_cases hd : isDigitC c
    · rw [noShortDigitRuns, if_pos hd] at h
      simp only [Bool.false_or, Bool.and_eq_true, decide_eq_true_eq] at h
      rw [digitsS2Match]
      rw [List.takeWhile_cons_of_pos hd]
      have h4 := h.1
      have h3 : decide ((c :: rest.takeWhile isDigitC).length ≤ 3) = false := by
        simp only [List.length_cons] at h4 ⊢
        simp only [decide_eq_false_iff_not]
        omega
      rw [h3]
      simp
    · rw [digitsS2Match]
      have hd' : isDigitC c = false := by simpa using hd
      rw [List.takeWhile_cons_of_neg (by simp [hd'])]
      simp

theorem digitsNonWMatch_none_of_noShort {cs : List Char}
    (h : noShortDigitRuns false cs = true) : digitsNonWMatch cs = none := by
  cases cs with
  | nil => rfl
  | cons c rest =>
    by_cases hd : isDigitC c
    · rw [noShortDigitRuns, if_pos hd] at h
      simp only [Bool.false_or, Bool.and_eq_true, decide_eq_true_eq] at h
      rw [digitsNonWMatch]
      rw [List.takeWhile_cons_of_pos hd]
      have h4 := h.1
      have h3 : decide ((c :: rest.takeWhile isDigitC).length ≤ 3) = false := by
        simp only [List.length_cons] at h4 ⊢
        simp only [decide_eq_false_iff_not]
        omega
      rw [h3]
      simp
    · rw [digitsNonWMatch]
      have hd' : isDigitC c = false := by simpa using hd
      rw [List.takeWhile_cons_of_neg (by simp [hd'])]
      simp

theorem subStandaloneF_id : ∀ (fuel : Nat) (atStart pdig : Bool) (cs : List Char),
    noShortDigitRuns pdig cs = true → (atStart = true → pdig = false) →
    subStandaloneF fuel atStart cs = cs := by
  intro fuel
  induction fuel with
  | zero => intros; rfl
  | succ fuel ih =>
    intro atStart pdig cs h ha
    cases cs with
    | nil => rfl
    | cons c rest =>
      rw [subStandaloneF]
      have hmain : (if atStart = true then digitsS2Match (c :: rest) else none) = none := by
        cases atStart with
        | false => rfl
        | true =>
          rw [if_pos rfl]
          exact digitsS2Match_none_of_noShort (ha rfl ▸ h)
      rw [hmain]
      by_cases hs1 : isS1 c
      · rw [if_pos hs1]
        have hcd : isDigitC c = false := isDigitC_false_of_isS1 hs1
        have hrest : noShortDigitRuns false rest = true := hcd ▸ noShort_tail h
        rw [digitsS2Match_none_of_noShort hrest]
        rw [ih false false rest hrest fun hcon => Bool.noConfusion hcon]
      · rw [if_neg hs1]
        rw [ih false (isDigitC c) rest (noShort_tail h) fun hcon => Bool.noConfusion hcon]

theorem subAfterPunctF_succ_cons (fuel : Nat) (c : Char) (rest : List Char) :
    subAfterPunctF (fuel + 1) (c :: rest) =
      (if c == ',' || c == ':' || c == ';' then
        match rest with
        | s :: rest2 =>
          if isSpace s then
            match digitsNonWMatch rest2 with
            | some (num, after) =>
              (if moneyFollow after then c :: s :: num else [c, s]) ++
                subAfterPunctF fuel after
            | none => c :: subAfterPunctF fuel rest
          else
            match digitsNonWMatch rest with
            | some (num, after) =>
              (if moneyFollow after then c :: num else [c]) ++ subAfterPunctF fuel after
            | none => c :: subAfterPunctF fuel rest
        | [] => [c]
      else c :: subAfterPunctF fuel rest) := rfl

theorem subAfterPunctF_id : ∀ (fuel : Nat) (pdig : Bool) (cs : List Char),
    noShortDigitRuns pdig cs = true → subAfterPunctF fuel cs = cs := by
  intro fuel
  induction fuel with
  | zero => intros; rfl
  | succ fuel ih =>
    intro pdig cs h
    cases cs with
    | nil => rfl
    | cons c rest =>
      rw [subAfterPunctF_succ_cons]
      by_cases hp : (c == ',' || c == ':' || c == ';') = true
      · rw [if_pos hp]
        have hcd : isDigitC c = false := by
          simp only [Bool.or_eq_true, beq_iff_eq] at hp
          rcases hp with (rfl | rfl) | rfl <;> decide
        have hrest : noShortDigitRuns false rest = true := hcd ▸ noShort_tail h
        cases rest with
        | nil => rfl
        | cons s rest2 =>
          dsimp only
          by_cases hsp : isSpace s = true
          · rw [if_pos hsp]
            have hsd : isDigitC s = false := isDigitC_false_of_isSpace hsp
            have hrest2 : noShortDigitRuns false rest2 = true := hsd ▸ noShort_tail hrest
            rw [digitsNonWMatch_none_of_noShort hrest2]
            dsimp only
            rw [ih false (s :: rest2) hrest]
          · rw [if_neg hsp]
            rw [digitsNonWMatch_none_of_noShort hrest]
            dsimp only
            rw [ih false (s :: rest2) hrest]
      · rw [if_neg hp]
        rw [ih (isDigitC c) rest (noShort_tail h)]

theorem subGluedF_succ_cons (fuel : Nat) (prev : Option Char) (c : Char)
    (rest : List Char) :
    subGluedF (fuel + 1) prev (c :: rest) =
      (if isDigitC c && (match prev with | some pc => isGluedPrev pc | none => false) then
        match digitsNonWMatch (c :: rest) with
        | some (num, after) => subGluedF fuel (some (num.getLastD c)) after
        | none => c :: subGluedF fuel (some c) rest
      else c :: subGluedF fuel (some c) rest) := rfl

theorem subGluedF_id : ∀ (fuel : Nat) (prev : Option Char) (cs : List Char),
    noShortDigitRuns (match prev with | some p => isDigitC p | none => false) cs = true →
    subGluedF fuel prev cs = cs := by
  intro fuel
  induction fuel with
  | zero => intros; rfl
  | succ fuel ih =>
    intro prev cs h
    cases cs with
    | nil => rfl
    | cons c rest =>
      rw [subGluedF_succ_cons]
      cases prev with
      | none =>
        dsimp only at h ⊢
        rw [Bool.and_false,
          if_neg (show (false = true) → False from fun hc => Bool.noConfusion hc)]
        rw [ih (some c) rest (noShort_tail h)]
      | some pc =>
        dsimp only at h ⊢
        by_cases hcond : (isDigitC c && isGluedPrev pc) = true
        · rw [if_pos hcond]
          rw [Bool.and_eq_true] at hcond
          have hpdig : isDigitC pc = false := isDigitC_false_of_gluedPrev hcond.2
          rw [hpdig] at h
          rw [digitsNonWMatch_none_of_noShort h]
          dsimp only
          rw [ih (some c) rest (noShort_tail h)]
        · rw [if_neg hcond]
          rw [ih (some c) rest (noShort_tail h)]

/-- C3 (amended): digit runs of four or more digits — in particular 4-digit
years — are never touched by any of the three contexts of the stripper
(the patterns only match 1-3 digit maximal runs); a 1-3 digit run is kept
when the token immediately following it (across whitespace only) is a
recognized currency term, as in "paid 100 ducats" (where the source also
duplicates the captured lookahead space).  A preceding currency term gives
no protection. -/
theorem C3_numeric_stripper_behavior :
    (∀ l : List Char, noShortDigitRuns false l = true → stripLineFootnotes l = l) ∧
    strip_footnote_numbers "in 1789 he".data = "in 1789 he".data ∧
    strip_footnote_numbers "paid 100 ducats".data = "paid 100  ducats".data ∧
    containsSub "100".data (strip_footnote_numbers "paid 100 ducats".data) = true := by
  refine ⟨?_, by decide, by decide, by decide⟩
  intro l h
  rw [stripLineFootnotes]
  rw [subStandaloneF_id l.length true false l h fun _ => rfl]
  rw [subAfterPunctF_id l.length false l h]
  rw [subGluedF_id l.length none l h]

/-- C3 counterexample: in "paid ducats 100" the token immediately preceding
the run `100` is the currency term "ducats", yet the stripper deletes the
run — only a directly following term protects a short digit run. -/
theorem C3_counterexample :
    strip_footnote_numbers "paid ducats 100".data = "paid ducats ".data ∧
    strip_footnote_numbers "paid ducats 100".data ≠ "paid ducats 100".data :=
  ⟨by decide, by decide⟩

/-- Witness for the universally quantified conjunct of C3. -/
theorem C3_witness :
    noShortDigitRuns false "in 1789 he".data = true ∧
    stripLineFootnotes "in 1789 he".data = "in 1789 he".data :=
  ⟨by decide, (C3_numeric_stripper_behavior.1) "in 1789 he".data (by decide)⟩
/-! ### Claim C5: reflow and paragraph separators -/

theorem map_id_of_eq (f : Char → Char) : ∀ (cs : List Char),
    (∀ c ∈ cs, f c = c) → cs.map f = cs := by
  intro cs
  induction cs with
  | nil => intro _; rfl
  | cons c rest ih =>
    intro h
    rw [List.map_cons, h c (List.mem_cons_self c rest),
      ih fun x hx => h x (List.mem_cons_of_mem c hx)]

theorem collapseNl3_succ_cons (fuel : Nat) (c : Char) (rest : List Char) :
    collapseNl3 (fuel + 1) (c :: rest) =
      (if c == '\n' then
        (if 2 ≤ (rest.takeWhile (· == '\n')).length then ['\n', '\n']
         else c :: rest.takeWhile (· == '\n')) ++
          collapseNl3 fuel (rest.dropWhile (· == '\n'))
      else c :: collapseNl3 fuel rest) := rfl

theorem collapseNl3_id : ∀ (fuel : Nat) (cs : List Char), '\n' ∉ cs →
    collapseNl3 fuel cs = cs := by
  intro fuel
  induction fuel with
  | zero => intro cs _; rfl
  | succ fuel ih =>
    intro cs h
    cases cs with
    | nil => rfl
    | cons c rest =>
      simp only [List.mem_cons, not_or] at h
      have hc : (c == '\n') = false := by
        by_contra hcon
        rw [Bool.not_eq_false] at hcon
        exact h.1 (eq_of_beq hcon).symm
      rw [collapseNl3_succ_cons, hc]
      simp only [Bool.false_eq_true, if_false]
      rw [ih rest h.2]

theorem dehyph_succ_cons (fuel : Nat) (c : Char) (rest : List Char) :
    dehyph (fuel + 1) (c :: rest) =
      (match rest with
      | '-' :: '\n' :: b :: rest2 =>
        if isAsciiLetter c && isAsciiLetter b then
          (if isLowerAscii b then [c, b] else [c, '-', b]) ++ dehyph fuel rest2
        else c :: dehyph fuel rest
      | _ => c :: dehyph fuel rest) := rfl

theorem dehyph_id : ∀ (fuel : Nat) (cs : List Char), '\n' ∉ cs →
    dehyph fuel cs = cs := by
  intro fuel
  induction fuel with
  | zero => intro cs _; rfl
  | succ fuel ih =>
    intro cs h
    cases cs with
    | nil => rfl
    | cons c rest =>
      rw [dehyph_succ_cons]
      split
      · rename_i b rest2
        exact absurd (show ('\n' ∈ c :: '-' :: '\n' :: b :: rest2) by simp) h
      · rw [ih rest fun hx => h (List.mem_cons_of_mem c hx)]

theorem collapseSpTab_succ_cons (fuel : Nat) (c : Char) (rest : List Char) :
    collapseSpTab (fuel + 1) (c :: rest) =
      (if isSpTab c then
        (if 1 ≤ (rest.takeWhile isSpTab).length then [' ']
         else [c]) ++ collapseSpTab fuel (rest.dropWhile isSpTab)
      else c :: collapseSpTab fuel rest) := rfl

theorem mem_collapseSpTab : ∀ (fuel : Nat) (cs : List Char) (x : Char),
    x ∈ collapseSpTab fuel cs → x = ' ' ∨ x ∈ cs := by
  intro fuel
  induction fuel with
  | zero => intro cs x hx; exact Or.inr hx
  | succ fuel ih =>
    intro cs x hx
    cases cs with
    | nil => exact Or.inr hx
    | cons c rest =>
      rw [collapseSpTab_succ_cons] at hx
      split at hx
      · rcases List.mem_append.mp hx with h1 | h2
        · split at h1
          · exact Or.inl (List.mem_singleton.mp h1)
          · exact Or.inr (by rw [List.mem_singleton.mp h1]; exact List.mem_cons_self _ _)
        · rcases ih _ x h2 with h | h
          · exact Or.inl h
          · exact Or.inr (List.mem_cons_of_mem c (List.dropWhile_subset _ h))
      · rcases List.mem_cons.mp hx with rfl | h2
        · exact Or.inr (List.mem_cons_self _ _)
        · rcases ih rest x h2 with h | h
          · exact Or.inl h
          · exact Or.inr (List.mem_cons_of_mem c h)

theorem punctTidy_succ_cons (fuel : Nat) (c : Char) (rest : List Char) :
    punctTidy (fuel + 1) (c :: rest) =
      (if isSpace c then
        match rest.dropWhile isSpace with
        | p :: rest2 =>
          if isPunct6 p then p :: punctTidy fuel rest2
          else (c :: rest.takeWhile isSpace) ++ punctTidy fuel (rest.dropWhile isSpace)
        | [] => c :: rest
      else c :: punctTidy fuel rest) := rfl

theorem mem_punctTidy : ∀ (fuel : Nat) (cs : List Char) (x : Char),
    x ∈ punctTidy fuel cs → x ∈ cs := by
  intro fuel
  induction fuel with
  | zero => intro cs x hx; exact hx
  | succ fuel ih =>
    intro cs x hx
    cases cs with
    | nil => exact hx
    | cons c rest =>
      rw [punctTidy_succ_cons] at hx
      split at hx
      · split at hx
        · rename_i p rest2 heq
          split at hx
          · rcases List.mem_cons.mp hx with rfl | h2
            · refine List.mem_cons_of_mem c (List.dropWhile_subset isSpace ?_)
              rw [heq]
              exact List.mem_cons_self _ _
            · refine List.mem_cons_of_mem c (List.dropWhile_subset isSpace ?_)
              rw [heq]
              exact List.mem_cons_of_mem p (ih rest2 x h2)
          · rcases List.mem_append.mp hx with h1 | h2
            · rcases List.mem_cons.mp h1 with rfl | h3
              · exact List.mem_cons_self _ _
              · exact List.mem_cons_of_mem c (List.takeWhile_subset isSpace h3)
            · exact List.mem_cons_of_mem c (List.dropWhile_subset isSpace (ih _ x h2))
        · exact hx
      · rcases List.mem_cons.mp hx with rfl | h2
        · exact List.mem_cons_self _ _
        · exact List.mem_cons_of_mem c (ih rest x h2)

theorem sentenceSpace_succ_cons (fuel : Nat) (c : Char) (rest : List Char) :
    sentenceSpace (fuel + 1) (c :: rest) =
      (match rest with
      | b :: rest2 =>
        if isTerm3 c && isAsciiLetter b then c :: ' ' :: b :: sentenceSpace fuel rest2
        else c :: sentenceSpace fuel rest
      | [] => [c]) := rfl

theorem mem_sentenceSpace : ∀ (fuel : Nat) (cs : List Char) (x : Char),
    x ∈ sentenceSpace fuel cs → x = ' ' ∨ x ∈ cs := by
  intro fuel
  induction fuel with
  | zero => intro cs x hx; exact Or.inr hx
  | succ fuel ih =>
    intro cs x hx
    cases cs with
    | nil => exact Or.inr hx
    | cons c rest =>
      rw [sentenceSpace_succ_cons] at hx
      split at hx
      · rename_i b rest2
        split at hx
        · rcases List.mem_cons.mp hx with rfl | hx2
          · exact Or.inr (List.mem_cons_self _ _)
          rcases List.mem_cons.mp hx2 with rfl | hx3
          · exact Or.inl rfl
          rcases List.mem_cons.mp hx3 with rfl | hx4
          · exact Or.inr (List.mem_cons_of_mem c (List.mem_cons_self _ _))
          rcases ih rest2 x hx4 with h | h
          · exact Or.inl h
          · exact Or.inr (List.mem_cons_of_mem c (List.mem_cons_of_mem b h))
        · rcases List.mem_cons.mp hx with rfl | hx2
          · exact Or.inr (List.mem_cons_self _ _)
          rcases ih (b :: rest2) x hx2 with h | h
          · exact Or.inl h
          · exact Or.inr (List.mem_cons_of_mem c h)
      · rcases List.mem_cons.mp hx with rfl | hx2
        · exact Or.inr (List.mem_cons_self _ _)
        · exact absurd hx2 (List.not_mem_nil x)

theorem head_mem_of_containsSub {b : Char} {tl : List Char} :
    ∀ {r : List Char}, containsSub (b :: tl) r = true → b ∈ r := by
  intro r
  induction r with
  | nil => intro h; exact absurd h (by simp [containsSub])
  | cons c rest ih =>
    intro h
    rw [containsSub, Bool.or_eq_true] at h
    rcases h with h | h
    · exact mem_of_isPrefixOf h b (List.mem_cons_self _ _)
    · exact List.mem_cons_of_mem c (ih h)

theorem not_containsSub_of_head {b : Char} {tl r : List Char} (h : b ∉ r) :
    containsSub (b :: tl) r = false := by
  by_contra hcon
  rw [Bool.not_eq_false] at hcon
  exact h (head_mem_of_containsSub hcon)

/-- C5 (amended): the Reflow Engine never CREATES a paragraph separator in
newline-free, placeholder-free text, and its "\n\n"-protection does
preserve ordinary separators while joining single wrapped lines; but it
CAN destroy a separator: the whitespace-before-punctuation tidy rule eats
a protected blank line that is immediately followed by punctuation. -/
theorem C5_reflow_separator_invariant :
    (∀ cs : List Char, '\n' ∉ cs → '<' ∉ cs →
      containsSub "\n\n".data (reflow cs) = false) ∧
    reflow "A\n\nB. C".data = "A\n\nB. C".data ∧
    reflow "One para here.\n\nsecond para\nwraps here.".data =
      "One para here.\n\nsecond para wraps here.".data ∧
    reflow "A\n\n!B".data = "A! B".data := by
  refine ⟨?_, by decide, by decide, by decide⟩
  intro cs hnl hlt
  have hne : ∀ c ∈ cs, c ≠ '\n' := fun c hc hceq => hnl (hceq ▸ hc)
  unfold reflow
  dsimp only
  rw [replaceAll_id (show ('\n' ∈ "\r\n".data) by decide) hne]
  rw [collapseNl3_id _ _ hnl]
  rw [replaceAll_id (show ('\n' ∈ "\n\n".data) by decide) hne]
  rw [dehyph_id _ _ hnl]
  rw [replaceAll_id (show ('\n' ∈ "­\n".data) by decide) hne]
  rw [map_id_of_eq (fun c => if c == '\n' then ' ' else c) cs (by
    intro c hc
    have h0 : (c == '\n') = false := by
      by_contra hcon
      rw [Bool.not_eq_false] at hcon
      exact hnl (eq_of_beq hcon ▸ hc)
    simp [h0])]
  rw [replaceAll_id (show ('<' ∈ PARA) by decide)
    (by intro c hc hceq; exact hlt (hceq ▸ hc))]
  refine not_containsSub_of_head ?_
  intro hmem
  rcases mem_sentenceSpace _ _ _ hmem with h | h
  · exact absurd h (by decide)
  · rcases mem_collapseSpTab _ _ _ (mem_punctTidy _ _ _ h) with h3 | h3
    · exact absurd h3 (by decide)
    · exact hnl h3

/-- C5 counterexample: "A\n\n!B" contains a paragraph separator before
reflow but none after it — the `\s+([,.;:?!])` tidy rule deletes the
protected-and-restored blank line because punctuation follows it. -/
theorem C5_counterexample :
    containsSub "\n\n".data "A\n\n!B".data = true ∧
    reflow "A\n\n!B".data = "A! B".data ∧
    containsSub "\n\n".data (reflow "A\n\n!B".data) = false :=
  ⟨by decide, by decide, by decide⟩

/-- Witness for the universally quantified conjunct of C5. -/
theorem C5_witness :
    '\n' ∉ "no newline here".data ∧ '<' ∉ "no newline here".data ∧
    containsSub "\n\n".data (reflow "no newline here".data) = false :=
  ⟨by decide, by decide,
    C5_reflow_separator_invariant.1 "no newline here".data (by decide) (by decide)⟩

/-! ### Claims C6 and C7: idempotence and Rule A -/

/-- C6: the Quote Normalizer is NOT idempotent.  On the mojibake fragment
"ÅÂ’" one application yields "Å’" — the table entry "Å’"→"Œ" has already
been tried (and missed, the "Â" sits in between) by the time the "Â"
artifact deletion runs — and a second application then maps "Å’" to "Œ":
re-running the stage on its own output changes the text. -/
theorem C6_quote_normalizer_not_idempotent :
    french_and_artifacts "ÅÂ’".data = "Å’".data ∧
    french_and_artifacts (french_and_artifacts "ÅÂ’".data) =
      "Œ".data ∧
    french_and_artifacts (french_and_artifacts "ÅÂ’".data) ≠
      french_and_artifacts "ÅÂ’".data :=
  ⟨by decide, by decide, by decide⟩

/-- C7 (amended): Rule A does insert a paragraph break between two adjacent
quoted spans ("Stop." "Why?" becomes two paragraphs), but because the match
consumes the opening quote of the second span, scanning resumes inside that
span: in a chain of three adjacent spans only the first boundary is broken
and the second adjacent pair stays on one line. -/
theorem C7_ruleA_adjacent_quotes :
    dialogue_paragraphing "\"Stop.\" \"Why?\"".data =
      "\"Stop.\"\n\n\"Why?\"".data ∧
    dialogue_paragraphing "\"a\" \"b\" \"c\"".data = "\"a\"\n\n\"b\" \"c\"".data :=
  ⟨by decide, by decide⟩

/-- C7 counterexample: after processing '"a" "b" "c"', the middle adjacency
— two quoted spans separated only by a single space — is still present
verbatim: not every adjacent pair receives a break. -/
theorem C7_counterexample :
    dialogue_paragraphing "\"a\" \"b\" \"c\"".data = "\"a\"\n\n\"b\" \"c\"".data ∧
    containsSub "\" \"".data (dialogue_paragraphing "\"a\" \"b\" \"c\"".data) = true :=
  ⟨by decide, by decide⟩

/-! ### Claim C8: one separator per chapter span -/

theorem passBlocks_nil (cs : List Char) (cur : Nat) :
    passBlocks cs cur [] = cs.drop cur := rfl

theorem passBlocks_cons (cs : List Char) (cur s e : Nat) (rest : List (Nat × Nat)) :
    passBlocks cs cur ((s, e) :: rest) =
      segment cs cur s ++
        processBlock
          (segment cs s (match rest with | (s2, _) :: _ => s2 | [] => cs.length))
          (e - s) ++
        passBlocks cs (match rest with | (s2, _) :: _ => s2 | [] => cs.length) rest :=
  rfl

theorem segment_count_zero {cs : List Char} (h : cs.count '-' = 0) (a b : Nat) :
    (segment cs a b).count '-' = 0 := by
  have hs : List.Sublist (segment cs a b) cs :=
    (List.take_sublist _ _).trans (List.drop_sublist _ _)
  have := hs.count_le '-'
  omega

theorem processBlock_count (block : List Char) (sf : Nat) :
    (processBlock block sf).count '-' = block.count '-' ∨
    (processBlock block sf).count '-' = block.count '-' + 3 := by
  cases hA : firstA1 block sf with
  | none =>
    left
    unfold processBlock
    rw [hA]
  | some v =>
    right
    obtain ⟨i, tok⟩ := v
    unfold processBlock
    rw [hA]
    dsimp only
    rw [List.count_append, List.count_append]
    have h3 : SEP.count '-' = 3 := by decide
    rw [h3]
    have ht : (block.take (_choose_insertion_index_for_A1 block i)).count '-' +
        (block.drop (_choose_insertion_index_for_A1 block i)).count '-' =
        block.count '-' := by
      rw [← List.count_append, List.take_append_drop]
    omega

theorem passBlocks_count (cs : List Char) (h : cs.count '-' = 0) :
    ∀ (ms : List (Nat × Nat)) (cur : Nat),
      ∃ k ≤ ms.length, (passBlocks cs cur ms).count '-' = 3 * k := by
  intro ms
  induction ms with
  | nil =>
    intro cur
    refine ⟨0, Nat.le_refl 0, ?_⟩
    rw [passBlocks_nil]
    have := (List.drop_sublist cur cs).count_le '-'
    omega
  | cons p rest ih =>
    intro cur
    obtain ⟨s, e⟩ := p
    rw [passBlocks_cons, List.count_append, List.count_append]
    set nxt := (match rest with | (s2, _) :: _ => s2 | [] => cs.length)
    obtain ⟨k', hk', hcount⟩ := ih nxt
    rw [hcount, segment_count_zero h cur s]
    rcases processBlock_count (segment cs s nxt) (e - s) with hp | hp
    · exact ⟨k', Nat.le_succ_of_le hk', by rw [hp, segment_count_zero h s nxt]; omega⟩
    · exact ⟨k' + 1, Nat.succ_le_succ hk', by rw [hp, segment_count_zero h s nxt]; omega⟩

/-- C8: for the spec's incipit vector the separator lands immediately before
`SHE` (the `\n\n---\n` block is inserted at that offset), and in general —
for dash-free input, so that separators are countable by their `---` — the
structurer inserts at most one separator per chapter span: the dash count of
the output is `3 * k` for some `k` bounded by the number of chapter
matches. -/
theorem C8_chapter_separator_insertion :
    pass_break_before_first_allcaps_in_chapter
        "CHAPTER IV\n\nSHE WAS gone. A thing happened.".data =
      "CHAPTER IV\n\n\n\n---\nSHE WAS gone. A thing happened.".data ∧
    (∀ cs : List Char, cs.count '-' = 0 →
      ∃ k ≤ (chapterMatches cs).length,
        (pass_break_before_first_allcaps_in_chapter cs).count '-' = 3 * k) := by
  refine ⟨by decide, ?_⟩
  intro cs h
  exact passBlocks_count cs h (chapterMatches cs) 0

/-- Witness for the universally quantified conjunct of C8. -/
theorem C8_witness :
    "CHAPTER II\n\nHE ran fast.".data.count '-' = 0 ∧
    ∃ k ≤ (chapterMatches "CHAPTER II\n\nHE ran fast.".data).length,
      (pass_break_before_first_allcaps_in_chapter
          "CHAPTER II\n\nHE ran fast.".data).count '-' = 3 * k :=
  ⟨by decide, C8_chapter_separator_insertion.2 "CHAPTER II\n\nHE ran fast.".data (by decide)⟩

/-! ### Claim C9: totality and no-match no-ops -/

theorem buildStep_nil_of_no_seed (lines : List (List Char)) (p? : Option Nat)
    (hseed : ∀ l ∈ lines, seedLine l = false) (i : Nat) (hi : i < lines.length) :
    buildStep lines p? lines.length [] i = [] := by
  have hs : seedLine (lines.getD i []) = false := by
    rw [List.getD_eq_getElem lines [] hi]
    exact hseed _ (lines.getElem_mem hi)
  simp only [buildStep, List.any_nil, hs, Bool.false_eq_true, if_false]

theorem buildSpans_nil_of_no_seed (lines : List (List Char)) (p? : Option Nat)
    (hseed : ∀ l ∈ lines, seedLine l = false) :
    buildSpans lines p? = [] := by
  rw [buildSpans]
  have hall : ∀ (is : List Nat), (∀ i ∈ is, i < lines.length) →
      is.foldl (buildStep lines p? lines.length) [] = [] := by
    intro is
    induction is with
    | nil => intro _; rfl
    | cons j js ih =>
      intro hmem
      rw [List.foldl_cons, buildStep_nil_of_no_seed lines p? hseed j
        (hmem j (List.mem_cons_self _ _))]
      exact ih fun i hi2 => hmem i (List.mem_cons_of_mem j hi2)
  exact hall _ fun i hi2 => List.mem_range.mp hi2

/-- C9: every stage of this embedding is a total Lean function on arbitrary
text, and the formalizable half of the claim — the absence of a matching
pattern is a no-op rather than an error — holds for the two pattern-driven
structural stages: when no line matches the seed patterns the Step 1 block
remover returns its input string unchanged (the same object, per the
source's early return), and when the text has no `CHAPTER <ROMAN>` match
the Step 3 structurer returns its input unchanged. -/
theorem C9_no_match_is_noop :
    (∀ s : String, (∀ l ∈ splitlines s.data, seedLine l = false) →
      remove_header_footer_blocks s = s) ∧
    (∀ cs : List Char, chapterMatches cs = [] →
      pass_break_before_first_allcaps_in_chapter cs = cs) := by
  constructor
  · intro s hseed
    unfold remove_header_footer_blocks
    dsimp only
    rw [buildSpans_nil_of_no_seed _ _ hseed]
    rfl
  · intro cs h
    rw [pass_break_before_first_allcaps_in_chapter, h, passBlocks_nil, List.drop_zero]

/-- Witness for both universally quantified halves of C9. -/
theorem C9_witness :
    (∀ l ∈ splitlines "just ordinary prose\nwith two lines".data, seedLine l = false) ∧
    remove_header_footer_blocks "just ordinary prose\nwith two lines" =
      "just ordinary prose\nwith two lines" ∧
    chapterMatches "no chapters here at all".data = [] ∧
    pass_break_before_first_allcaps_in_chapter "no chapters here at all".data =
      "no chapters here at all".data :=
  ⟨by decide, C9_no_match_is_noop.1 "just ordinary prose\nwith two lines" (by decide),
    by decide, C9_no_match_is_noop.2 "no chapters here at all".data (by decide)⟩

/-! ### Claim C10: the preservation rule -/

theorem chapSearchF_zero (b : Bool) (cs : List Char) : chapSearchF 0 b cs = none := rfl

theorem chapSearchF_succ_nil (fuel : Nat) (b : Bool) :
    chapSearchF (fuel + 1) b [] = none := rfl

theorem chapSearchF_succ_cons (fuel : Nat) (b : Bool) (d : Char) (rest : List Char) :
    chapSearchF (fuel + 1) b (d :: rest) =
      (match (if b then chapCore ((d :: rest).dropWhile isSpace) else none) with
      | some r => some r
      | none => chapSearchF fuel (d == '\n') rest) := rfl

theorem volHeadSearchF_zero (b : Bool) (cs : List Char) : volHeadSearchF 0 b cs = none := rfl

theorem volHeadSearchF_succ_nil (fuel : Nat) (b : Bool) :
    volHeadSearchF (fuel + 1) b [] = none := rfl

theorem volHeadSearchF_succ_cons (fuel : Nat) (b : Bool) (d : Char) (rest : List Char) :
    volHeadSearchF (fuel + 1) b (d :: rest) =
      (match (if b then volCore ((d :: rest).dropWhile isSpace) else none) with
      | some r => some r
      | none => volHeadSearchF fuel (d == '\n') rest) := rfl

theorem presentF_zero (c : List Char) (b : Bool) (cs : List Char) :
    presentF c 0 b cs = false := rfl

theorem presentF_succ_nil (c : List Char) (fuel : Nat) (b : Bool) :
    presentF c (fuel + 1) b [] = false := rfl

theorem presentF_succ_cons (c : List Char) (fuel : Nat) (b : Bool) (d : Char)
    (rest : List Char) :
    presentF c (fuel + 1) b (d :: rest) =
      ((b && presentAt c (d :: rest)) || presentF c fuel (d == '\n') rest) := rfl

theorem preserveStep_none (t : List Char) : preserveStep t none = t := rfl

theorem preserveStep_some (t c : List Char) :
    preserveStep t (some c) =
      (if presentAsLine t c then t
       else joinNl (insertBeforeFirstNonblank (splitlines t) c)) := rfl

theorem joinNl_nil : joinNl [] = [] := rfl

theorem joinNl_singleton (a : List Char) : joinNl [a] = a := by
  simp [joinNl, List.intercalate, List.intersperse]

theorem joinNl_cons_cons (a b : List Char) (l : List (List Char)) :
    joinNl (a :: b :: l) = a ++ '\n' :: joinNl (b :: l) := by
  simp [joinNl, List.intercalate, List.intersperse_cons_cons]

theorem joinNl_append : ∀ (A B : List (List Char)), A ≠ [] → B ≠ [] →
    joinNl (A ++ B) = joinNl A ++ '\n' :: joinNl B := by
  intro A
  induction A with
  | nil => intro B h _; exact absurd rfl h
  | cons a A2 ih =>
    intro B _ hB
    cases A2 with
    | nil =>
      cases B with
      | nil => exact absurd rfl hB
      | cons b B2 =>
        rw [List.singleton_append, joinNl_cons_cons, joinNl_singleton]
    | cons a2 A3 =>
      have h1 : joinNl ((a :: a2 :: A3) ++ B) = a ++ '\n' :: joinNl ((a2 :: A3) ++ B) := by
        rw [show (a :: a2 :: A3) ++ B = a :: a2 :: (A3 ++ B) from rfl]
        rw [joinNl_cons_cons, ← List.cons_append]
      rw [h1, ih B (by simp) hB, joinNl_cons_cons]
      simp

theorem take_takeWhile_len {p : List Char → Bool} : ∀ (ls : List (List Char)),
    ls.take (ls.takeWhile p).length = ls.takeWhile p := by
  intro ls
  induction ls with
  | nil => rfl
  | cons a rest ih =>
    rw [List.takeWhile_cons]
    split_ifs with h
    · rw [List.length_cons, List.take_succ_cons, ih]
    · rfl

theorem stripL_isEmpty_all_ws {l : List Char} (h : (stripL l).isEmpty = true) :
    ∀ x ∈ l, isSpace x = true := by
  rw [stripL, List.isEmpty_iff, List.reverse_eq_nil_iff] at h
  have h2 : ∀ x ∈ (l.dropWhile isSpace).reverse, isSpace x = true :=
    List.dropWhile_eq_nil_iff.mp h
  have h3 : ∀ x ∈ l.dropWhile isSpace, isSpace x = true := by
    intro x hx
    exact h2 x (List.mem_reverse.mpr hx)
  intro x hx
  rw [← List.takeWhile_append_dropWhile isSpace l] at hx
  rcases List.mem_append.mp hx with hx1 | hx2
  · exact List.mem_takeWhile_imp hx1
  · exact h3 x hx2

theorem joinNl_all_ws : ∀ (ls : List (List Char)),
    (∀ l ∈ ls, ∀ x ∈ l, isSpace x = true) →
    ∀ x ∈ joinNl ls, isSpace x = true := by
  intro ls
  induction ls with
  | nil => intro _ x hx; rw [joinNl_nil] at hx; exact absurd hx (List.not_mem_nil x)
  | cons a rest ih =>
    intro h x hx
    cases rest with
    | nil =>
      rw [joinNl_singleton] at hx
      exact h a (List.mem_cons_self _ _) x hx
    | cons b rest2 =>
      rw [joinNl_cons_cons] at hx
      rcases List.mem_append.mp hx with hx1 | hx2
      · exact h a (List.mem_cons_self _ _) x hx1
      · rcases List.mem_cons.mp hx2 with rfl | hx3
        · decide
        · exact ih (fun l hl => h l (List.mem_cons_of_mem a hl)) x hx3

theorem splitlines_round (t : List Char) :
    t = joinNl (splitlines t) ∨ t = joinNl (splitlines t) ++ ['\n'] := by
  have hrt : joinNl (t.splitOn '\n') = t := List.intercalate_splitOn t '\n'
  have hne : t.splitOn '\n' ≠ [] := by
    rw [List.splitOn]
    exact List.splitOnP_ne_nil _ t
  rw [splitlines]
  split_ifs with hlast
  · have hgl : (t.splitOn '\n').getLast hne = [] := by
      have h2 := List.getLast?_eq_getLast (t.splitOn '\n') hne
      rw [h2] at hlast
      exact (Option.some.injEq _ _).mp hlast
    have hsplit := List.dropLast_concat_getLast hne
    rw [hgl] at hsplit
    cases hE : (t.splitOn '\n').dropLast with
    | nil =>
      left
      rw [hE] at hsplit
      rw [← hrt, ← hsplit]
      rfl
    | cons d ds =>
      right
      rw [← hrt, ← hsplit, hE]
      rw [joinNl_append (d :: ds) [[]] (by simp) (by simp), joinNl_singleton]
  · left
    exact hrt.symm

theorem lastIsNl_append (b : Bool) : ∀ (y z : List Char),
    lastIsNl b (y ++ z) = lastIsNl (lastIsNl b y) z := by
  intro y
  induction y generalizing b with
  | nil => intro z; rfl
  | cons d y2 ih => intro z; rw [List.cons_append, lastIsNl, lastIsNl, ih]

theorem lastIsNl_concat_nl (b : Bool) (y : List Char) :
    lastIsNl b (y ++ ['\n']) = true := by
  rw [lastIsNl_append]
  rfl

theorem isPrefixOf_self_append : ∀ (c r : List Char), c.isPrefixOf (c ++ r) = true := by
  intro c
  induction c with
  | nil => intro r; cases r <;> rfl
  | cons a c2 ih =>
    intro r
    rw [List.cons_append]
    simp [List.isPrefixOf, ih r]

theorem tailSS_cons_nl (y : List Char) : tailSS ('\n' :: y) = true := by
  rw [tailSS, List.takeWhile_cons_of_pos (by decide)]
  simp

theorem presentAt_congr {c x y : List Char}
    (h : x.dropWhile isSpace = y.dropWhile isSpace) :
    presentAt c x = presentAt c y := by
  rw [presentAt, presentAt, h]

theorem presentAt_self {ch : Char} {c2 : List Char} (hh : isSpace ch = false)
    (y : List Char) : presentAt (ch :: c2) ((ch :: c2) ++ '\n' :: y) = true := by
  rw [presentAt]
  rw [List.cons_append, List.dropWhile_cons_of_neg (by simp [hh]), ← List.cons_append]
  rw [isPrefixOf_self_append]
  rw [List.drop_left]
  rw [tailSS_cons_nl]
  rfl

theorem length_le_of_isPrefixOf : ∀ {c l : List Char}, c.isPrefixOf l = true →
    c.length ≤ l.length := by
  intro c
  induction c with
  | nil => intro l _; simp
  | cons a c2 ih =>
    intro l h
    cases l with
    | nil => exact absurd h (by simp [List.isPrefixOf])
    | cons d l2 =>
      simp only [List.isPrefixOf, Bool.and_eq_true] at h
      simp only [List.length_cons]
      exact Nat.succ_le_succ (ih h.2)

theorem drop_append_of_isPrefixOf : ∀ {c d : List Char}, c.isPrefixOf d = true →
    ∀ (y : List Char), (d ++ y).drop c.length = d.drop c.length ++ y := by
  intro c
  induction c with
  | nil => intro d _ y; simp
  | cons a c2 ih =>
    intro d h y
    cases d with
    | nil => exact absurd h (by simp [List.isPrefixOf])
    | cons e d2 =>
      simp only [List.isPrefixOf, Bool.and_eq_true] at h
      rw [List.cons_append]
      simp only [List.length_cons, List.drop_succ_cons]
      exact ih h.2 y

theorem isPrefixOf_snoc_nonl : ∀ {c z : List Char}, c.getLast? ≠ some '\n' →
    c.isPrefixOf (z ++ ['\n']) = true → c.isPrefixOf z = true := by
  intro c
  induction c with
  | nil => intro z _ _; cases z <;> rfl
  | cons a c2 ih =>
    intro z hlast h
    cases z with
    | nil =>
      simp only [List.nil_append, List.isPrefixOf, Bool.and_eq_true, beq_iff_eq] at h
      obtain ⟨rfl, h2⟩ := h
      cases c2 with
      | nil => exact absurd rfl hlast
      | cons b c3 => exact absurd h2 (by simp [List.isPrefixOf])
    | cons e z2 =>
      simp only [List.cons_append, List.isPrefixOf, Bool.and_eq_true] at h ⊢
      refine ⟨h.1, ?_⟩
      cases c2 with
      | nil => cases z2 <;> rfl
      | cons b c3 =>
        refine ih ?_ h.2
        intro hcon
        exact hlast (by rw [List.getLast?_cons_cons]; exact hcon)

theorem tailSS_snoc {y : List Char} (h : tailSS (y ++ ['\n']) = true) :
    tailSS y = true := by
  cases hE : y.dropWhile isSpace with
  | nil =>
    rw [tailSS, hE]
    rfl
  | cons d ds =>
    have hlen : (y.takeWhile isSpace).length ≠ y.length := by
      intro hcon
      have hsum := congrArg List.length (List.takeWhile_append_dropWhile isSpace y)
      rw [List.length_append, hE] at hsum
      simp only [List.length_cons] at hsum
      omega
    rw [tailSS, List.dropWhile_append, List.takeWhile_append] at h
    rw [hE] at h
    simp only [List.isEmpty_cons, if_false, Bool.false_or] at h
    rw [if_neg hlen] at h
    rw [tailSS, hE]
    simp only [List.isEmpty_cons, Bool.false_or]
    exact h

theorem presentAt_snoc {c x : List Char} (hc : c ≠ [])
    (hlast : c.getLast? ≠ some '\n') (h : presentAt c (x ++ ['\n']) = true) :
    presentAt c x = true := by
  rw [presentAt, List.dropWhile_append] at h
  cases hE : (x.dropWhile isSpace).isEmpty with
  | true =>
    rw [hE, if_pos rfl] at h
    have : x.dropWhile isSpace = [] := List.isEmpty_iff.mp hE
    simp only [List.dropWhile_cons_of_pos (show isSpace '\n' = true by decide),
      List.dropWhile_nil] at h
    cases c with
    | nil => exact absurd rfl hc
    | cons a c2 => exact absurd h (by simp [List.isPrefixOf])
  | false =>
    rw [hE] at h
    simp only [Bool.false_eq_true, if_false] at h
    rw [Bool.and_eq_true] at h
    have hpfx : c.isPrefixOf (x.dropWhile isSpace) = true :=
      isPrefixOf_snoc_nonl hlast h.1
    rw [presentAt, hpfx, Bool.true_and]
    have hdrop := drop_append_of_isPrefixOf hpfx ['\n']
    rw [hdrop] at h
    exact tailSS_snoc h.2

theorem presentAt_nil_false {c : List Char} (hc : c ≠ []) : presentAt c [] = false := by
  cases c with
  | nil => exact absurd rfl hc
  | cons a c2 =>
    rw [presentAt, List.dropWhile_nil]
    simp [List.isPrefixOf]

theorem presentAt_nl_false {c : List Char} (hc : c ≠ []) : presentAt c ['\n'] = false := by
  cases c with
  | nil => exact absurd rfl hc
  | cons a c2 =>
    rw [presentAt]
    rw [List.dropWhile_cons_of_pos (by decide), List.dropWhile_nil]
    simp [List.isPrefixOf]

theorem presentF_of_split {c : List Char} (hc : c ≠ []) :
    ∀ (u : List Char) (b : Bool) (w : List Char) (fuel : Nat),
      u.length + w.length ≤ fuel → lastIsNl b u = true → presentAt c w = true →
      presentF c fuel b (u ++ w) = true := by
  intro u
  induction u with
  | nil =>
    intro b w fuel hf hl hp
    cases w with
    | nil => exact absurd hp (by rw [presentAt_nil_false hc]; simp)
    | cons d rest =>
      cases fuel with
      | zero => simp at hf
      | succ f =>
        rw [List.nil_append, presentF_succ_cons]
        rw [lastIsNl] at hl
        rw [hl, hp]
        rfl
  | cons d u2 ih =>
    intro b w fuel hf hl hp
    cases fuel with
    | zero => simp at hf
    | succ f =>
      rw [List.cons_append, presentF_succ_cons, Bool.or_eq_true]
      refine Or.inr (ih (d == '\n') w f ?_ ?_ hp)
      · simp only [List.length_cons] at hf
        omega
      · rw [lastIsNl] at hl
        exact hl

theorem presentF_split {c : List Char} :
    ∀ (fuel : Nat) (b : Bool) (t : List Char), presentF c fuel b t = true →
      ∃ u w, t = u ++ w ∧ lastIsNl b u = true ∧ presentAt c w = true := by
  intro fuel
  induction fuel with
  | zero =>
    intro b t h
    rw [presentF_zero] at h
    exact absurd h (by simp)
  | succ fuel ih =>
    intro b t h
    cases t with
    | nil =>
      rw [presentF_succ_nil] at h
      exact absurd h (by simp)
    | cons d rest =>
      rw [presentF_succ_cons, Bool.or_eq_true, Bool.and_eq_true] at h
      rcases h with ⟨hb, hp⟩ | h2
      · exact ⟨[], d :: rest, rfl, hb, hp⟩
      · obtain ⟨u, w, heq, hu, hp⟩ := ih (d == '\n') rest h2
        refine ⟨d :: u, w, ?_, ?_, hp⟩
        · rw [List.cons_append, heq]
        · rw [lastIsNl]
          exact hu

theorem hasMatch_drop_last_nl {c t0 : List Char} (hc : c ≠ [])
    (hlast : c.getLast? ≠ some '\n')
    (h : ∃ u w, t0 ++ ['\n'] = u ++ w ∧ lastIsNl true u = true ∧ presentAt c w = true) :
    ∃ u w, t0 = u ++ w ∧ lastIsNl true u = true ∧ presentAt c w = true := by
  obtain ⟨u, w, heq, hu, hp⟩ := h
  rcases List.append_eq_append_iff.mp heq with ⟨a, ha1, ha2⟩ | ⟨a, ha1, ha2⟩
  · -- u = t0 ++ a, ['\n'] = a ++ w
    cases a with
    | nil =>
      rw [List.nil_append] at ha2
      rw [← ha2] at hp
      exact absurd hp (by rw [presentAt_nl_false hc]; simp)
    | cons a0 a2 =>
      have h2 : a0 = '\n' ∧ a2 ++ w = [] := by
        have := ha2.symm
        rw [List.cons_append] at this
        exact ⟨(List.cons.injEq _ _ _ _).mp this |>.1, (List.cons.injEq _ _ _ _).mp this |>.2⟩
      have hw : w = [] := (List.append_eq_nil.mp h2.2).2
      rw [hw] at hp
      exact absurd hp (by rw [presentAt_nil_false hc]; simp)
  · -- t0 = u ++ a, w = a ++ ['\n']
    refine ⟨u, a, ha1, hu, ?_⟩
    rw [ha2] at hp
    exact presentAt_snoc hc hlast hp

theorem hasMatch_insert {c pre jb : List Char} (v : List Char)
    (hpre : ∀ x ∈ pre, isSpace x = true)
    (h : ∃ u w, pre ++ jb = u ++ w ∧ lastIsNl true u = true ∧ presentAt c w = true) :
    ∃ u w, pre ++ '\n' :: v ++ '\n' :: '\n' :: jb = u ++ w ∧
      lastIsNl true u = true ∧ presentAt c w = true := by
  obtain ⟨u, w, heq, hu, hp⟩ := h
  rcases List.append_eq_append_iff.mp heq with ⟨a, ha1, ha2⟩ | ⟨a, ha1, ha2⟩
  · cases a with
    | nil =>
      refine ⟨pre ++ '\n' :: v ++ ['\n', '\n'], w, ?_, ?_, hp⟩
      · rw [ha2]
        simp
      · rw [show pre ++ '\n' :: v ++ ['\n', '\n'] =
            (pre ++ '\n' :: v ++ ['\n']) ++ ['\n'] from by simp]
        exact lastIsNl_concat_nl _ _
    | cons a0 a2 =>
      refine ⟨(pre ++ '\n' :: v ++ ['\n', '\n']) ++ a0 :: a2, w, ?_, ?_, hp⟩
      · rw [ha2]
        simp
      · rw [lastIsNl_append]
        have hu2 : lastIsNl (lastIsNl true pre) (a0 :: a2) = true := by
          rw [← lastIsNl_append, ← ha1]
          exact hu
        rw [lastIsNl] at hu2 ⊢
        exact hu2
  · have ha : ∀ x ∈ a, isSpace x = true := by
      intro x hx
      refine hpre x ?_
      rw [ha1]
      exact List.mem_append.mpr (Or.inr hx)
    have hp2 : presentAt c jb = true := by
      rw [← presentAt_congr (List.dropWhile_append_of_pos ha), ← ha2]
      exact hp
    refine ⟨pre ++ '\n' :: v ++ ['\n', '\n'], jb, by simp, ?_, hp2⟩
    rw [show pre ++ '\n' :: v ++ ['\n', '\n'] =
        (pre ++ '\n' :: v ++ ['\n']) ++ ['\n'] from by simp]
    exact lastIsNl_concat_nl _ _

theorem joinNl_ins_mid_nil (v : List Char) :
    joinNl [[], v, []] = '\n' :: v ++ ['\n'] := by
  rw [joinNl_cons_cons, joinNl_cons_cons, joinNl_singleton]
  simp

theorem joinNl_ins_mid (v : List Char) : ∀ (B : List (List Char)), B ≠ [] →
    joinNl ([] :: v :: [] :: B) = '\n' :: v ++ '\n' :: '\n' :: joinNl B := by
  intro B hB
  cases B with
  | nil => exact absurd rfl hB
  | cons b B2 =>
    rw [joinNl_cons_cons, joinNl_cons_cons, joinNl_cons_cons]
    simp

theorem pre_ws {A : List (List Char)} (hA : ∀ l ∈ A, ∀ x ∈ l, isSpace x = true) :
    ∀ x ∈ joinNl A ++ ['\n'], isSpace x = true := by
  intro x hx
  rcases List.mem_append.mp hx with h | h
  · exact joinNl_all_ws A hA x h
  · rw [List.mem_singleton] at h
    subst h
    decide

theorem joinNl_insert_cases (A B : List (List Char)) (v : List Char)
    (hAws : ∀ l ∈ A, ∀ x ∈ l, isSpace x = true) :
    (∃ pre2, lastIsNl true pre2 = true ∧
        joinNl (A ++ [[], v, []] ++ B) = pre2 ++ '\n' :: v ++ ['\n'] ∧
        (∀ x ∈ joinNl (A ++ B), isSpace x = true)) ∨
    (∃ pre, (∀ x ∈ pre, isSpace x = true) ∧
        joinNl (A ++ B) = pre ++ joinNl B ∧
        joinNl (A ++ [[], v, []] ++ B) = pre ++ '\n' :: v ++ '\n' :: '\n' :: joinNl B) := by
  cases B with
  | nil =>
    left
    cases A with
    | nil =>
      refine ⟨[], rfl, ?_, ?_⟩
      · rw [List.nil_append, List.append_nil, joinNl_ins_mid_nil]
        rfl
      · intro x hx
        rw [List.nil_append, joinNl_nil] at hx
        exact absurd hx (List.not_mem_nil x)
    | cons a A2 =>
      refine ⟨joinNl (a :: A2) ++ ['\n'], lastIsNl_concat_nl _ _, ?_, ?_⟩
      · rw [List.append_nil, joinNl_append (a :: A2) [[], v, []] (by simp) (by simp),
          joinNl_ins_mid_nil]
        simp
      · intro x hx
        rw [List.append_nil] at hx
        exact joinNl_all_ws (a :: A2) hAws x hx
  | cons b B2 =>
    right
    cases A with
    | nil =>
      refine ⟨[], by intro x hx; exact absurd hx (List.not_mem_nil x), by simp, ?_⟩
      rw [List.nil_append]
      rw [show ([[], v, []] ++ b :: B2) = [] :: v :: [] :: (b :: B2) from rfl]
      rw [joinNl_ins_mid v (b :: B2) (by simp)]
      rfl
    | cons a A2 =>
      refine ⟨joinNl (a :: A2) ++ ['\n'], pre_ws hAws, ?_, ?_⟩
      · rw [joinNl_append (a :: A2) (b :: B2) (by simp) (by simp)]
        simp
      · rw [List.append_assoc, joinNl_append (a :: A2) ([[], v, []] ++ b :: B2)
          (by simp) (by simp)]
        rw [show ([[], v, []] ++ b :: B2) = [] :: v :: [] :: (b :: B2) from rfl]
        rw [joinNl_ins_mid v (b :: B2) (by simp)]
        simp

theorem mem_takeWhile_blank {l : List Char} {ls : List (List Char)}
    (h : l ∈ ls.takeWhile (fun l => (stripL l).isEmpty)) :
    (stripL l).isEmpty = true := by
  induction ls with
  | nil => exact absurd h (List.not_mem_nil l)
  | cons a rest ih =>
    rw [List.takeWhile_cons] at h
    split_ifs at h with hc
    · rcases List.mem_cons.mp h with rfl | h2
      · exact hc
      · exact ih h2
    · exact absurd h (List.not_mem_nil l)

theorem take_drop_split (t : List Char) : splitlines t =
    (splitlines t).takeWhile (fun l => (stripL l).isEmpty) ++
      (splitlines t).drop
        ((splitlines t).takeWhile (fun l => (stripL l).isEmpty)).length := by
  conv_lhs => rw [← List.take_append_drop
    ((splitlines t).takeWhile (fun l => (stripL l).isEmpty)).length (splitlines t)]
  rw [take_takeWhile_len]

theorem insert_decomp (t v : List Char) :
    (∃ pre jb : List Char,
      (∀ x ∈ pre, isSpace x = true) ∧
      (t = pre ++ jb ∨ t = pre ++ jb ++ ['\n']) ∧
      joinNl (insertBeforeFirstNonblank (splitlines t) v) =
        pre ++ '\n' :: v ++ '\n' :: '\n' :: jb) ∨
    ((∀ x ∈ t, isSpace x = true) ∧
      ∃ pre2 : List Char, lastIsNl true pre2 = true ∧
        joinNl (insertBeforeFirstNonblank (splitlines t) v) =
          pre2 ++ '\n' :: v ++ ['\n']) := by
  have hmemA : ∀ l ∈ (splitlines t).takeWhile (fun l => (stripL l).isEmpty),
      ∀ x ∈ l, isSpace x = true := by
    intro l hl
    exact stripL_isEmpty_all_ws (mem_takeWhile_blank hl)
  have h0 : insertBeforeFirstNonblank (splitlines t) v =
      (splitlines t).take
          ((splitlines t).takeWhile (fun l => (stripL l).isEmpty)).length ++
        [[], v, []] ++
        (splitlines t).drop
          ((splitlines t).takeWhile (fun l => (stripL l).isEmpty)).length := rfl
  have hins : insertBeforeFirstNonblank (splitlines t) v =
      (splitlines t).takeWhile (fun l => (stripL l).isEmpty) ++ [[], v, []] ++
        (splitlines t).drop
          ((splitlines t).takeWhile (fun l => (stripL l).isEmpty)).length := by
    rw [h0, take_takeWhile_len]
  rcases joinNl_insert_cases
      ((splitlines t).takeWhile (fun l => (stripL l).isEmpty))
      ((splitlines t).drop
        ((splitlines t).takeWhile (fun l => (stripL l).isEmpty)).length)
      v hmemA with ⟨pre2, hpre2nl, hinsEq, hallws⟩ | ⟨pre, hprews, hABeq, hinsEq⟩
  · right
    constructor
    · intro x hx
      rcases splitlines_round t with hsr | hsr
      · rw [hsr, take_drop_split t] at hx
        exact hallws x hx
      · rw [hsr, take_drop_split t] at hx
        rcases List.mem_append.mp hx with h | h
        · exact hallws x h
        · rw [List.mem_singleton] at h
          subst h
          decide
    · refine ⟨pre2, hpre2nl, ?_⟩
      rw [hins]
      exact hinsEq
  · left
    refine ⟨pre,
      joinNl ((splitlines t).drop
        ((splitlines t).takeWhile (fun l => (stripL l).isEmpty)).length),
      hprews, ?_, ?_⟩
    · rcases splitlines_round t with hsr | hsr
      · left
        conv_lhs => rw [hsr, take_drop_split t]
        exact hABeq
      · right
        conv_lhs => rw [hsr, take_drop_split t]
        rw [hABeq]
    · rw [hins]
      exact hinsEq

theorem presentAsLine_insert {t : List Char} {ch : Char} {c2 : List Char}
    (hh : isSpace ch = false) :
    presentAsLine (joinNl (insertBeforeFirstNonblank (splitlines t) (ch :: c2)))
      (ch :: c2) = true := by
  rcases insert_decomp t (ch :: c2) with
    ⟨pre, jb, hprews, _, hinsEq⟩ | ⟨_, pre2, hpre2nl, hinsEq⟩
  · rw [hinsEq, presentAsLine]
    rw [show pre ++ '\n' :: (ch :: c2) ++ '\n' :: '\n' :: jb =
        (pre ++ ['\n']) ++ ((ch :: c2) ++ '\n' :: '\n' :: jb) from by simp]
    refine presentF_of_split (by simp) (pre ++ ['\n']) true
      ((ch :: c2) ++ '\n' :: '\n' :: jb) _ ?_ (lastIsNl_concat_nl _ _) ?_
    · simp only [List.length_append, List.length_cons]
      omega
    · exact presentAt_self hh ('\n' :: jb)
  · rw [hinsEq, presentAsLine]
    rw [show pre2 ++ '\n' :: (ch :: c2) ++ ['\n'] =
        (pre2 ++ ['\n']) ++ ((ch :: c2) ++ '\n' :: ([] : List Char)) from by simp]
    refine presentF_of_split (by simp) (pre2 ++ ['\n']) true
      ((ch :: c2) ++ '\n' :: ([] : List Char)) _ ?_ (lastIsNl_concat_nl _ _) ?_
    · simp only [List.length_append, List.length_cons]
      omega
    · exact presentAt_self hh []

theorem presentAsLine_keeps {t c : List Char} (v : List Char) (hc : c ≠ [])
    (hlast : c.getLast? ≠ some '\n') (h : presentAsLine t c = true) :
    presentAsLine (joinNl (insertBeforeFirstNonblank (splitlines t) v)) c = true := by
  obtain ⟨u, w, hteq, hu, hp⟩ := presentF_split t.length true t h
  rcases insert_decomp t v with
    ⟨pre, jb, hprews, hteq2, hinsEq⟩ | ⟨hallws, pre2, hpre2nl, hinsEq⟩
  · have hmatch : ∃ u2 w2, pre ++ jb = u2 ++ w2 ∧ lastIsNl true u2 = true ∧
        presentAt c w2 = true := by
      rcases hteq2 with hE | hE
      · refine ⟨u, w, ?_, hu, hp⟩
        rw [← hE]
        exact hteq
      · refine hasMatch_drop_last_nl hc hlast ⟨u, w, ?_, hu, hp⟩
        rw [← hE]
        exact hteq
    obtain ⟨u2, w2, hEq2, hu2, hp2⟩ := hasMatch_insert v hprews hmatch
    rw [hinsEq, presentAsLine, hEq2]
    exact presentF_of_split hc u2 true w2 _ (by simp) hu2 hp2
  · exfalso
    have hwws : ∀ x ∈ w, isSpace x = true := by
      intro x hx
      refine hallws x ?_
      rw [hteq]
      exact List.mem_append.mpr (Or.inr hx)
    have hdw : w.dropWhile isSpace = [] := List.dropWhile_eq_nil_iff.mpr hwws
    rw [presentAt, hdw] at hp
    cases c with
    | nil => exact hc rfl
    | cons a c2 =>
      rw [show (a :: c2).isPrefixOf ([] : List Char) = false from rfl] at hp
      exact Bool.noConfusion hp

theorem getLast_append_class {p : Char → Bool} {pre X : List Char}
    (hnl : p '\n' = false)
    (h : (pre ++ X.takeWhile p).getLast? = some '\n') : X.takeWhile p = [] := by
  by_contra hne
  rw [List.getLast?_append, List.getLast?_eq_getLast _ hne] at h
  simp only [Option.or_some] at h
  have hg : (X.takeWhile p).getLast hne = '\n' := (Option.some.injEq _ _).mp h
  have hmem : ('\n' : Char) ∈ X.takeWhile p := hg ▸ List.getLast_mem hne
  have hcls := List.mem_takeWhile_imp hmem
  rw [hnl] at hcls
  exact Bool.noConfusion hcls

theorem chapCore_props {a c : List Char} (h : chapCore a = some c) :
    c ≠ [] ∧ isSpace (c.headD ' ') = false ∧ c.getLast? ≠ some '\n' := by
  have hh : ∀ (y : List Char), (("CHAPTER".data ++ y)).headD ' ' = 'C' := fun y => rfl
  rw [chapCore] at h
  split_ifs at h with h1 h2 h3
  · obtain rfl := ((Option.some.injEq _ _).mp h)
    refine ⟨?_, ?_, ?_⟩
    · intro hnil
      rw [List.append_eq_nil, List.append_eq_nil] at hnil
      exact absurd hnil.1.1 (by decide)
    · rw [List.append_assoc, hh]
      decide
    · intro hcon
      have hRnil := getLast_append_class (show isRomanUp '\n' = false from by decide) hcon
      rw [hRnil] at h2
      simp at h2
  · obtain rfl := ((Option.some.injEq _ _).mp h)
    refine ⟨?_, ?_, ?_⟩
    · intro hnil
      rw [List.append_eq_nil, List.append_eq_nil] at hnil
      exact absurd hnil.1.1 (by decide)
    · rw [List.append_assoc, hh]
      decide
    · intro hcon
      have hRnil := getLast_append_class
        (show isUpperOrDigit '\n' = false from by decide) hcon
      rw [hRnil] at h3
      simp at h3

theorem chapSearchF_some : ∀ (fuel : Nat) (b : Bool) (cs : List Char) {c : List Char},
    chapSearchF fuel b cs = some c → ∃ a, chapCore a = some c := by
  intro fuel
  induction fuel with
  | zero =>
    intro b cs c h
    rw [chapSearchF_zero] at h
    exact absurd h (by simp)
  | succ fuel ih =>
    intro b cs c h
    cases cs with
    | nil =>
      rw [chapSearchF_succ_nil] at h
      exact absurd h (by simp)
    | cons d rest =>
      rw [chapSearchF_succ_cons] at h
      cases hb : (if b then chapCore ((d :: rest).dropWhile isSpace) else none) with
      | some r =>
        rw [hb] at h
        dsimp only at h
        cases b with
        | true =>
          rw [if_pos rfl] at hb
          refine ⟨(d :: rest).dropWhile isSpace, ?_⟩
          rw [hb]
          exact h
        | false =>
          rw [if_neg (by simp)] at hb
          exact absurd hb (by simp)
      | none =>
        rw [hb] at h
        dsimp only at h
        exact ih (d == '\n') rest h

theorem firstAllcaps_props {cs c : List Char} (h : firstAllcapsChapterLine cs = some c) :
    c ≠ [] ∧ isSpace (c.headD ' ') = false ∧ c.getLast? ≠ some '\n' := by
  obtain ⟨a, ha⟩ := chapSearchF_some cs.length true cs h
  exact chapCore_props ha

theorem volCore_props {a v : List Char} (h : volCore a = some v) :
    v ≠ [] ∧ isSpace (v.headD ' ') = false := by
  have hh : ∀ (y : List Char), (("Volume".data ++ y)).headD ' ' = 'V' := fun y => rfl
  rw [volCore] at h
  split_ifs at h with h1
  · obtain rfl := ((Option.some.injEq _ _).mp h)
    constructor
    · intro hnil
      rw [List.append_eq_nil, List.append_eq_nil] at hnil
      exact absurd hnil.1.1 (by decide)
    · rw [List.append_assoc, hh]
      decide

theorem volHeadSearchF_some : ∀ (fuel : Nat) (b : Bool) (cs : List Char) {v : List Char},
    volHeadSearchF fuel b cs = some v → ∃ a, volCore a = some v := by
  intro fuel
  induction fuel with
  | zero =>
    intro b cs v h
    rw [volHeadSearchF_zero] at h
    exact absurd h (by simp)
  | succ fuel ih =>
    intro b cs v h
    cases cs with
    | nil =>
      rw [volHeadSearchF_succ_nil] at h
      exact absurd h (by simp)
    | cons d rest =>
      rw [volHeadSearchF_succ_cons] at h
      cases hb : (if b then volCore ((d :: rest).dropWhile isSpace) else none) with
      | some r =>
        rw [hb] at h
        dsimp only at h
        cases b with
        | true =>
          rw [if_pos rfl] at hb
          refine ⟨(d :: rest).dropWhile isSpace, ?_⟩
          rw [hb]
          exact h
        | false =>
          rw [if_neg (by simp)] at hb
          exact absurd hb (by simp)
      | none =>
        rw [hb] at h
        dsimp only at h
        exact ih (d == '\n') rest h

theorem firstVolume_props {cs v : List Char} (h : firstVolumeLine cs = some v) :
    v ≠ [] ∧ isSpace (v.headD ' ') = false := by
  obtain ⟨a, ha⟩ := volHeadSearchF_some cs.length true cs h
  exact volCore_props ha

/-- C10 (amended): whenever `chap_line_re` (resp. the `Volume` pattern)
matches the original text, the output of the preservation stage contains
the remembered value `group(0).strip()` as a `^\s*…\s*$` occurrence — it
is re-inserted, surrounded by blank lines, before the first non-blank
line when it had gone missing, as the concrete conjunct shows.  Because
`\s+` crosses newlines, the remembered value need not be a LINE of the
original (see the counterexample), so the guarantee is stated with the
source's own presence test. -/
theorem C10_preservation_rule :
    (∀ (text original : List Char) c, firstAllcapsChapterLine original = some c →
      presentAsLine
        (_preserve_allcaps_chapter_and_first_volume_chapter text original) c = true) ∧
    (∀ (text original : List Char) v, firstVolumeLine original = some v →
      presentAsLine
        (_preserve_allcaps_chapter_and_first_volume_chapter text original) v = true) ∧
    (∀ (original : String) c, firstAllcapsChapterLine original.data = some c →
      presentAsLine (step1_pipeline original).data c = true) ∧
    _preserve_allcaps_chapter_and_first_volume_chapter "body line here.".data
      "CHAPTER IV\nbody line here.".data = "\nCHAPTER IV\n\nbody line here.".data := by
  have hinsert : ∀ (t c : List Char), c ≠ [] → isSpace (c.headD ' ') = false →
      presentAsLine (preserveStep t (some c)) c = true := by
    intro t c hc hh
    rw [preserveStep_some]
    split_ifs with hg
    · exact hg
    · cases c with
      | nil => exact absurd rfl hc
      | cons ch c2 => exact presentAsLine_insert (by simpa using hh)
  have hchap : ∀ (text original : List Char) c,
      firstAllcapsChapterLine original = some c →
      presentAsLine
        (_preserve_allcaps_chapter_and_first_volume_chapter text original) c = true := by
    intro text original c h
    obtain ⟨hc, hh, hlast⟩ := firstAllcaps_props h
    rw [_preserve_allcaps_chapter_and_first_volume_chapter, h]
    have h1 : presentAsLine (preserveStep text (some c)) c = true := hinsert text c hc hh
    cases hvol : firstVolumeLine original with
    | none =>
      rw [preserveStep_none]
      exact h1
    | some v =>
      rw [preserveStep_some]
      split_ifs with hg2
      · exact h1
      · exact presentAsLine_keeps v hc hlast h1
  refine ⟨hchap, ?_, ?_, by decide⟩
  · intro text original v h
    obtain ⟨hv, hvh⟩ := firstVolume_props h
    rw [_preserve_allcaps_chapter_and_first_volume_chapter, h]
    exact hinsert _ v hv hvh
  · intro original c h
    exact hchap _ original.data c h

/-- C10 counterexample to the claim as worded: `\s+` crosses newlines, so
on an original beginning `CHAPTER\nIV` the program remembers the two-line
match `CHAPTER\nIV` — not the first all-caps heading LINE `CHAPTER V` —
and the stage's output need not contain that line at all. -/
theorem C10_counterexample :
    firstAllcapsChapterLine "CHAPTER\nIV\nCHAPTER V\nA body line.".data =
      some "CHAPTER\nIV".data ∧
    _preserve_allcaps_chapter_and_first_volume_chapter "A body line.".data
      "CHAPTER\nIV\nCHAPTER V\nA body line.".data =
      "\nCHAPTER\nIV\n\nA body line.".data ∧
    ((splitlines "CHAPTER\nIV\nCHAPTER V\nA body line.".data).any
      (fun l => stripL l == "CHAPTER V".data)) = true ∧
    ((splitlines (_preserve_allcaps_chapter_and_first_volume_chapter "A body line.".data
        "CHAPTER\nIV\nCHAPTER V\nA body line.".data)).any
      (fun l => stripL l == "CHAPTER V".data)) = false :=
  ⟨by decide, by decide, by decide, by decide⟩

/-- Witness for C10: the remembered heading of the original is re-inserted
when missing from the processed text. -/
theorem C10_witness :
    firstAllcapsChapterLine "CHAPTER IV\nbody line here.".data = some "CHAPTER IV".data ∧
    presentAsLine
      (_preserve_allcaps_chapter_and_first_volume_chapter "body line here.".data
        "CHAPTER IV\nbody line here.".data) "CHAPTER IV".data = true :=
  ⟨by decide, C10_preservation_rule.1 "body line here.".data
    "CHAPTER IV\nbody line here.".data "CHAPTER IV".data (by decide)⟩

end PdfPipeline
